import Mathlib

/-!
Shallow embedding of `m_theory/dim4/so8_supergravity_extrema/colab/so8_supergravity.py`
(SO(8) gauged supergravity: Spin(8)/SU(8)/E7 tensor invariants, scalar potential and
stationarity evaluation, critical-point scan driver), together with proofs checking the
natural-language specification against this embedding.

Modelling conventions:
* numpy arrays become functions out of `Fin`-indexed tuples; `numpy.einsum` becomes
  nested `Finset.sum`s following the given index patterns exactly;
* real floating-point scalars are modelled by `ℚ` where the construction is exact
  rational arithmetic (the gamma tensors, projectors) and by `ℝ`/`ℂ` in the analytic
  potential pipeline; `complex128` arrays become `ℂ`-valued functions;
* scatter-stores into a zero-initialised array become either a left fold of
  `Function.update` over the ordered list of writes, or (when the written cells are
  pairwise distinct, as in the source) an equivalent case-split definition;
* the unbounded `while` loop inside `permutation_sign` and the unbounded `while` loop
  of `scan_many` are given explicit fuel, with `Option.none`/failure marking the
  (never reached, as proved below) fuel exhaustion;
* `tf.linalg.expm` is `NormedSpace.exp ℂ` on `Matrix (Fin 56) (Fin 56) ℂ`.
-/

/-- Sequential scatter-stores into an array, last write wins:
`applyWrites ws f` executes the writes of `ws` in order starting from contents `f`. -/
def applyWrites {K V : Type} [DecidableEq K] (ws : List (K × V)) (f : K → V) : K → V :=
  ws.foldl (fun g kv => Function.update g kv.1 kv.2) f

/-- All arrangements of `k` elements drawn in order of first occurrence; for a
duplicate-free input this is exactly `itertools.permutations` (lexicographic by
position choice).  Structural in `k` so that it evaluates inside the kernel. -/
def permutationsAux : ℕ → List ℕ → List (List ℕ)
  | 0, _ => [[]]
  | k + 1, l => l.flatMap fun x => (permutationsAux k (l.erase x)).map (x :: ·)

/-- All permutations of a list, in the order produced by `itertools.permutations`. -/
def permutationsL (l : List ℕ) : List (List ℕ) := permutationsAux l.length l

/-- All `k`-element combinations of a list, in the order of `itertools.combinations`. -/
def combinationsL : ℕ → List ℕ → List (List ℕ)
  | 0, _ => [[]]
  | _ + 1, [] => []
  | k + 1, x :: xs => (combinationsL k xs).map (x :: ·) ++ combinationsL (k + 1) xs

/-- One pass of the inner `while n != q[n]` loop of `permutation_sign`: repeatedly swap
`q[n]` with `q[q[n]]`, flipping the parity, until position `n` holds `n`.  The source
loop is unbounded; fuel exhaustion is reported as `none`. -/
def psInner : ℕ → ℕ → List ℕ → Int → Option (List ℕ × Int)
  | 0, _, _, _ => none
  | fuel + 1, n, q, par =>
      let qn := q.getD n 0
      if n = qn then some (q, par)
      else psInner fuel n ((q.set n (q.getD qn 0)).set qn qn) (-par)

/-- `permutation_sign(p)` from the source: cycle-decomposition parity of a sequence
that is a permutation of `0..len(p)-1`.  Each inner loop gets fuel `p.length + 1`,
which never runs out on permutation input (proved below). -/
def permutation_sign (p : List ℕ) : Option Int :=
  ((List.range p.length).foldlM
      (fun (st : List ℕ × Int) n => psInner (p.length + 1) n st.1 st.2) (p, 1)).map
    Prod.snd

/-- The literal gamma-matrix table from `Spin8._get_gamma_vsc`, one token per entry:
vector index, spinor index, cospinor index, sign. -/
def gammaEntriesStr : String :=
  "007+ 016- 025- 034+ 043- 052+ 061+ 070- 101+ 110- 123- 132+ 145+ 154- 167- 176+ 204+ 215- 226+ 237- 240- 251+ 262- 273+ 302+ 313+ 320- 331- 346- 357- 364+ 375+ 403+ 412- 421+ 430- 447+ 456- 465+ 474- 505+ 514+ 527+ 536+ 541- 550- 563- 572- 606+ 617+ 624- 635- 642+ 653+ 660- 671- 700+ 711+ 722+ 733+ 744+ 755+ 766+ 777+"

/-- Split a character list on single spaces (the `entries.split()` of the source;
defined structurally so that it evaluates inside the kernel, unlike `String.splitOn`). -/
def splitOnSpace : List Char → List (List Char)
  | [] => [[]]
  | c :: cs =>
      if c = ' ' then [] :: splitOnSpace cs
      else
        match splitOnSpace cs with
        | [] => [[c]]
        | t :: ts => (c :: t) :: ts

/-- Parse one token `ijk±` of the gamma table into a write `((i,j,k), ±1)`. -/
def parseGammaTok : List Char → Option ((ℕ × ℕ × ℕ) × ℚ)
  | [a, b, c, s] =>
      some ((a.toNat - 48, b.toNat - 48, c.toNat - 48), if s = '+' then 1 else -1)
  | _ => none

/-- The ordered list of the 64 writes performed by `Spin8._get_gamma_vsc`. -/
def gammaWrites : List ((ℕ × ℕ × ℕ) × ℚ) :=
  (splitOnSpace gammaEntriesStr.toList).filterMap parseGammaTok

/-- `Spin8._get_gamma_vsc`: the 8×8×8 gamma tensor, built by scattering the literal
table into a zero array. -/
def gamma_vsc (i s c : Fin 8) : ℚ :=
  applyWrites gammaWrites (fun _ => 0) (i.val, s.val, c.val)

/-- The same 64 writes as an explicit literal list (checked against the parsed form). -/
def gammaWritesL : List ((ℕ × ℕ × ℕ) × ℚ) := [
  ((0, 0, 7), 1), ((0, 1, 6), -1), ((0, 2, 5), -1), ((0, 3, 4), 1),
  ((0, 4, 3), -1), ((0, 5, 2), 1), ((0, 6, 1), 1), ((0, 7, 0), -1),
  ((1, 0, 1), 1), ((1, 1, 0), -1), ((1, 2, 3), -1), ((1, 3, 2), 1),
  ((1, 4, 5), 1), ((1, 5, 4), -1), ((1, 6, 7), -1), ((1, 7, 6), 1),
  ((2, 0, 4), 1), ((2, 1, 5), -1), ((2, 2, 6), 1), ((2, 3, 7), -1),
  ((2, 4, 0), -1), ((2, 5, 1), 1), ((2, 6, 2), -1), ((2, 7, 3), 1),
  ((3, 0, 2), 1), ((3, 1, 3), 1), ((3, 2, 0), -1), ((3, 3, 1), -1),
  ((3, 4, 6), -1), ((3, 5, 7), -1), ((3, 6, 4), 1), ((3, 7, 5), 1),
  ((4, 0, 3), 1), ((4, 1, 2), -1), ((4, 2, 1), 1), ((4, 3, 0), -1),
  ((4, 4, 7), 1), ((4, 5, 6), -1), ((4, 6, 5), 1), ((4, 7, 4), -1),
  ((5, 0, 5), 1), ((5, 1, 4), 1), ((5, 2, 7), 1), ((5, 3, 6), 1),
  ((5, 4, 1), -1), ((5, 5, 0), -1), ((5, 6, 3), -1), ((5, 7, 2), -1),
  ((6, 0, 6), 1), ((6, 1, 7), 1), ((6, 2, 4), -1), ((6, 3, 5), -1),
  ((6, 4, 2), 1), ((6, 5, 3), 1), ((6, 6, 0), -1), ((6, 7, 1), -1),
  ((7, 0, 0), 1), ((7, 1, 1), 1), ((7, 2, 2), 1), ((7, 3, 3), 1),
  ((7, 4, 4), 1), ((7, 5, 5), 1), ((7, 6, 6), 1), ((7, 7, 7), 1)]

/-- Fast lookup form of the gamma table: for each (vector, spinor) pair, the unique
cospinor index carrying a nonzero entry, together with that sign. -/
def gammaPairN : ℕ → ℕ → ℕ × ℚ
  | 0, 0 => (7, 1)
  | 0, 1 => (6, -1)
  | 0, 2 => (5, -1)
  | 0, 3 => (4, 1)
  | 0, 4 => (3, -1)
  | 0, 5 => (2, 1)
  | 0, 6 => (1, 1)
  | 0, 7 => (0, -1)
  | 1, 0 => (1, 1)
  | 1, 1 => (0, -1)
  | 1, 2 => (3, -1)
  | 1, 3 => (2, 1)
  | 1, 4 => (5, 1)
  | 1, 5 => (4, -1)
  | 1, 6 => (7, -1)
  | 1, 7 => (6, 1)
  | 2, 0 => (4, 1)
  | 2, 1 => (5, -1)
  | 2, 2 => (6, 1)
  | 2, 3 => (7, -1)
  | 2, 4 => (0, -1)
  | 2, 5 => (1, 1)
  | 2, 6 => (2, -1)
  | 2, 7 => (3, 1)
  | 3, 0 => (2, 1)
  | 3, 1 => (3, 1)
  | 3, 2 => (0, -1)
  | 3, 3 => (1, -1)
  | 3, 4 => (6, -1)
  | 3, 5 => (7, -1)
  | 3, 6 => (4, 1)
  | 3, 7 => (5, 1)
  | 4, 0 => (3, 1)
  | 4, 1 => (2, -1)
  | 4, 2 => (1, 1)
  | 4, 3 => (0, -1)
  | 4, 4 => (7, 1)
  | 4, 5 => (6, -1)
  | 4, 6 => (5, 1)
  | 4, 7 => (4, -1)
  | 5, 0 => (5, 1)
  | 5, 1 => (4, 1)
  | 5, 2 => (7, 1)
  | 5, 3 => (6, 1)
  | 5, 4 => (1, -1)
  | 5, 5 => (0, -1)
  | 5, 6 => (3, -1)
  | 5, 7 => (2, -1)
  | 6, 0 => (6, 1)
  | 6, 1 => (7, 1)
  | 6, 2 => (4, -1)
  | 6, 3 => (5, -1)
  | 6, 4 => (2, 1)
  | 6, 5 => (3, 1)
  | 6, 6 => (0, -1)
  | 6, 7 => (1, -1)
  | 7, 0 => (0, 1)
  | 7, 1 => (1, 1)
  | 7, 2 => (2, 1)
  | 7, 3 => (3, 1)
  | 7, 4 => (4, 1)
  | 7, 5 => (5, 1)
  | 7, 6 => (6, 1)
  | 7, 7 => (7, 1)
  | _, _ => (0, 0)

/-- Table form of `gamma_vsc`. -/
def gammaTable (i s c : Fin 8) : ℚ :=
  if c.val = (gammaPairN i.val s.val).1 then (gammaPairN i.val s.val).2 else 0

/-! ## Spin8 derived gamma tensors -/

/-- `g_ijsS` of `Spin8.__init__`: `einsum('isc,jSc->ijsS', gamma_vsc, gamma_vsc)`. -/
def g_ijsS (i j s S : Fin 8) : ℚ := ∑ c, gamma_vsc i s c * gamma_vsc j S c

/-- `g_ijcC` of `Spin8.__init__`: `einsum('isc,jsC->ijcC', gamma_vsc, gamma_vsc)`. -/
def g_ijcC (i j c C : Fin 8) : ℚ := ∑ s, gamma_vsc i s c * gamma_vsc j s C

/-- `Spin8.gamma_vvss`. -/
def gamma_vvss (i j s S : Fin 8) : ℚ :=
  (1 / 2) * ((∑ c, gamma_vsc i s c * gamma_vsc j S c) -
    ∑ c, gamma_vsc j s c * gamma_vsc i S c)

/-- `Spin8.gamma_vvcc`. -/
def gamma_vvcc (i j c C : Fin 8) : ℚ :=
  (1 / 2) * ((∑ s, gamma_vsc i s c * gamma_vsc j s C) -
    ∑ s, gamma_vsc j s c * gamma_vsc i s C)

/-- `g_ijklsS`: `einsum('ijst,kltS->ijklsS', g_ijsS, g_ijsS)`. -/
def g_ijklsS (i j k l s S : Fin 8) : ℚ := ∑ t, g_ijsS i j s t * g_ijsS k l t S

/-- `g_ijklcC`: `einsum('ijcd,kldC->ijklcC', g_ijcC, g_ijcC)`. -/
def g_ijklcC (i j k l c C : Fin 8) : ℚ := ∑ d, g_ijcC i j c d * g_ijcC k l d C

/-- The 24 permutations of `range(4)`, in `itertools` order. -/
def perm4 : List (List ℕ) := permutationsL (List.range 4)

/-- Pick component `p[a]` of the vector-index quadruple `v`
(the axis relabelling `einsum(perm_ijkl + 'sS->ijklsS', ...)` of the source). -/
def permSel (v : List (Fin 8)) (p : List ℕ) (a : ℕ) : Fin 8 := v.getD (p.getD a 0) 0

/-- `Spin8.gamma_vvvvss`: full antisymmetrisation of `g_ijklsS` over the four vector
indices, normalised by 1/24. -/
def gamma_vvvvss (i j k l s S : Fin 8) : ℚ :=
  (perm4.map fun p =>
    (((permutation_sign p).getD 0 : ℤ) : ℚ) *
      g_ijklsS (permSel [i, j, k, l] p 0) (permSel [i, j, k, l] p 1)
        (permSel [i, j, k, l] p 2) (permSel [i, j, k, l] p 3) s S).sum / 24

/-- `Spin8.gamma_vvvvcc`: full antisymmetrisation of `g_ijklcC` over the four vector
indices, normalised by 1/24. -/
def gamma_vvvvcc (i j k l c C : Fin 8) : ℚ :=
  (perm4.map fun p =>
    (((permutation_sign p).getD 0 : ℤ) : ℚ) *
      g_ijklcC (permSel [i, j, k, l] p 0) (permSel [i, j, k, l] p 1)
        (permSel [i, j, k, l] p 2) (permSel [i, j, k, l] p 3) c C).sum / 24

/-! ## SU8 -/

/-- `SU8.ij_map`: all pairs `(i, j)` with `i < j < 8`, lexicographic. -/
def ij_map : List (ℕ × ℕ) :=
  (List.range 8).flatMap fun i => ((List.range 8).filter fun j => i < j).map fun j => (i, j)

/-- Rational core of `SU8.m_35_8_8` (the array holds real values of complex dtype):
7 Cartan directions followed by 28 symmetric pair generators. -/
def m_35_8_8Q (a : Fin 35) (i j : Fin 8) : ℚ :=
  if a.val < 7 then
    if i.val = a.val ∧ j.val = a.val then 1
    else if i.val = a.val + 1 ∧ j.val = a.val + 1 then -1
    else 0
  else
    let mn := ij_map.getD (a.val - 7) (0, 0)
    if (i.val, j.val) = mn ∨ (j.val, i.val) = mn then 1 else 0

/-- Rational core of `SU8.m_28_8_8`: antisymmetric pair generators. -/
def m_28_8_8Q (a : Fin 28) (i j : Fin 8) : ℚ :=
  let mn := ij_map.getD a.val (0, 0)
  if (i.val, j.val) = mn then 1 else if (j.val, i.val) = mn then -1 else 0

/-- `SU8.m_35_8_8` as a complex array (as in the source, dtype complex128). -/
noncomputable def m_35_8_8 (a : Fin 35) (i j : Fin 8) : ℂ := (m_35_8_8Q a i j : ℚ)

/-- `SU8.m_28_8_8` as a complex array. -/
noncomputable def m_28_8_8 (a : Fin 28) (i j : Fin 8) : ℂ := (m_28_8_8Q a i j : ℚ)

/-- `SU8.t_aij`: su(8) generator matrices; indices `0..34` are `1j * m_35_8_8`, and for
the pair `(i, j) = ij_map[a]` index `35 + a` carries `-1` at `(i, j)` and `+1` at
`(j, i)` (writes of the source loop; all written cells are pairwise distinct). -/
noncomputable def t_aij (a : Fin 63) (i j : Fin 8) : ℂ :=
  if h : a.val < 35 then Complex.I * m_35_8_8 ⟨a.val, h⟩ i j
  else
    let mn := ij_map.getD (a.val - 35) (0, 0)
    if (i.val, j.val) = mn then -1 else if (j.val, i.val) = mn then 1 else 0

/-! ## Self-dual projectors (`get_proj_35_8888`) -/

/-- `get_selfdual(ijkl)` from the source: the complementary subset, and the duality
sign `sign_selfdual * permutation_sign(ijkl + mnpq)`. -/
def get_selfdual (sd : Bool) (ijkl : List ℕ) : Int × List ℕ × List ℕ :=
  let mnpq := (List.range 8).filter fun n => ¬(n ∈ ijkl)
  ((if sd then 1 else -1) * (permutation_sign (ijkl ++ mnpq)).getD 0, ijkl, mnpq)

/-- The 35 lexicographic 4-subsets of `{0..7}` containing 0, with their duality data. -/
def selfduals (sd : Bool) : List (Int × List ℕ × List ℕ) :=
  ((combinationsL 4 (List.range 8)).filter fun c => 0 ∈ c).map (get_selfdual sd)

/-- The ordered scatter-writes of `get_proj_35_8888`: for each subset and each
permutation `abcd` of 4 positions, a write into the permuted subset cells and one into
the permuted complement cells.  Cell addresses are `(num_sd, [i1,i2,i3,i4])`. -/
def projWrites (sd : Bool) : List ((ℕ × List ℕ) × ℚ) :=
  (selfduals sd).enum.flatMap fun x =>
    perm4.flatMap fun abcd =>
      let sa : Int := (permutation_sign abcd).getD 0
      [((x.1, abcd.map fun p => x.2.2.1.getD p 0), (sa : ℚ)),
       ((x.1, abcd.map fun p => x.2.2.2.getD p 0), ((sa * x.2.1 : ℤ) : ℚ))]

/-- `get_proj_35_8888(want_selfdual)`: the 35×8×8×8×8 projector, scatter-built and then
normalised by 1/24. -/
def get_proj_35_8888 (sd : Bool) (a : Fin 35) (i j k l : Fin 8) : ℚ :=
  applyWrites (projWrites sd) (fun _ => 0) (a.val, [i.val, j.val, k.val, l.val]) / 24

/-! ## E7 generator tensor -/

/-- `einsum('ijklsS,qsS->ijklq', gamma_vvvvss, m_35_8_8)`. -/
noncomputable def e7_A_ss (i j k l : Fin 8) (q : Fin 35) : ℂ :=
  ∑ s, ∑ S, ((gamma_vvvvss i j k l s S : ℚ) : ℂ) * m_35_8_8 q s S

/-- `einsum('ijklq,Iij->qIkl', ..., m_28_8_8)`. -/
noncomputable def e7_B_ss (q : Fin 35) (I : Fin 28) (k l : Fin 8) : ℂ :=
  ∑ i, ∑ j, e7_A_ss i j k l q * m_28_8_8 I i j

/-- `einsum('qIkl,Kkl->qIK', ..., m_28_8_8)`: the self-dual-sector 28×28 block. -/
noncomputable def e7_C_ss (q : Fin 35) (I K : Fin 28) : ℂ :=
  ∑ k, ∑ l, e7_B_ss q I k l * m_28_8_8 K k l

/-- `einsum('ijklcC,qcC->ijklq', gamma_vvvvcc, m_35_8_8)`. -/
noncomputable def e7_A_cc (i j k l : Fin 8) (q : Fin 35) : ℂ :=
  ∑ c, ∑ C, ((gamma_vvvvcc i j k l c C : ℚ) : ℂ) * m_35_8_8 q c C

/-- `einsum('ijklq,Iij->qIkl', ..., m_28_8_8)` for the anti-self-dual sector. -/
noncomputable def e7_B_cc (q : Fin 35) (I : Fin 28) (k l : Fin 8) : ℂ :=
  ∑ i, ∑ j, e7_A_cc i j k l q * m_28_8_8 I i j

/-- `einsum('qIkl,Kkl->qIK', ..., m_28_8_8)`: the anti-self-dual-sector 28×28 block. -/
noncomputable def e7_C_cc (q : Fin 35) (I K : Fin 28) : ℂ :=
  ∑ k, ∑ l, e7_B_cc q I k l * m_28_8_8 K k l

/-- `numpy.eye(8)`. -/
def eye8 (m n : Fin 8) : ℂ := if m = n then 1 else 0

/-- `su8_28` of `E7.__init__`: the action of each su(8) generator on the
28-dimensional antisymmetric representation (doubled). -/
noncomputable def su8_28 (a : Fin 63) (I J : Fin 28) : ℂ :=
  2 * ∑ j, ∑ n, (∑ i, ∑ m, (t_aij a i j * eye8 m n) * m_28_8_8 I i m) * m_28_8_8 J j n

/-- The mutable 133×56×56 array built by `E7.__init__`. -/
def E7State : Type := Fin 133 → Fin 56 → Fin 56 → ℂ

/-- One execution of the body of the `for a in range(35)` loop of `E7.__init__`:
six block-assignments into pairwise disjoint index regions of the array. -/
noncomputable def e7_body (s : E7State) : E7State := fun a i j =>
  if h : a.val < 35 ∧ 28 ≤ i.val ∧ j.val < 28 then
    (1 / 8 : ℂ) * e7_C_ss ⟨a.val, h.1⟩ ⟨i.val - 28, by omega⟩ ⟨j.val, h.2.2⟩
  else if h : a.val < 35 ∧ i.val < 28 ∧ 28 ≤ j.val then
    (1 / 8 : ℂ) * e7_C_ss ⟨a.val, h.1⟩ ⟨i.val, h.2.1⟩ ⟨j.val - 28, by omega⟩
  else if h : 35 ≤ a.val ∧ a.val < 70 ∧ 28 ≤ i.val ∧ j.val < 28 then
    (Complex.I / 8) * e7_C_cc ⟨a.val - 35, by omega⟩ ⟨i.val - 28, by omega⟩ ⟨j.val, h.2.2.2⟩
  else if h : 35 ≤ a.val ∧ a.val < 70 ∧ i.val < 28 ∧ 28 ≤ j.val then
    (-Complex.I / 8) * e7_C_cc ⟨a.val - 35, by omega⟩ ⟨i.val, h.2.2.1⟩ ⟨j.val - 28, by omega⟩
  else if h : 70 ≤ a.val ∧ i.val < 28 ∧ j.val < 28 then
    su8_28 ⟨a.val - 70, by omega⟩ ⟨i.val, h.2.1⟩ ⟨j.val, h.2.2⟩
  else if h : 70 ≤ a.val ∧ 28 ≤ i.val ∧ 28 ≤ j.val then
    (starRingEnd ℂ) (su8_28 ⟨a.val - 70, by omega⟩ ⟨i.val - 28, by omega⟩ ⟨j.val - 28, by omega⟩)
  else s a i j

/-- `e7.t_a_ij_kl`: the loop of `E7.__init__` executed on the zero array. -/
noncomputable def e7_t_a_ij_kl : E7State :=
  (List.range 35).foldl (fun s _ => e7_body s) fun _ _ _ => 0

/-- Following the observation of the claim: the loop body executed exactly once. -/
noncomputable def e7_t_once : E7State := e7_body fun _ _ _ => 0

/-! ## Potential evaluation (`tf_so8_sugra_potential`) -/

/-- The square 56×56 complex matrices of the vielbein computation. -/
abbrev Mat56 : Type := Matrix (Fin 56) (Fin 56) ℂ

open Matrix

/-- `einsum('v,vIJ->JI', complex(v70), e7.t_a_ij_kl[:70])`: note the transposed
output index order `JI` of the source. -/
noncomputable def t_e7_generator (v70 : Fin 70 → ℝ) : Mat56 := fun J I =>
  ∑ v : Fin 70, (v70 v : ℂ) * e7_t_a_ij_kl ⟨v.val, by omega⟩ I J

/-- The 56×56 combination the claim speaks about: `G = Σ v70[k] * generator[k]` over
the first 70 (noncompact) generators, in standard row/column order. -/
noncomputable def claimG (v70 : Fin 70 → ℝ) : Mat56 := fun I J =>
  ∑ k : Fin 70, (v70 k : ℂ) * e7_t_a_ij_kl ⟨k.val, by omega⟩ I J

/-- `t_complex_vielbein = tf.linalg.expm(t_e7_generator_v70)`. -/
noncomputable def t_complex_vielbein (v70 : Fin 70 → ℝ) : Mat56 :=
  NormedSpace.exp ℂ (t_e7_generator v70)

/-- Index embedding for the upper 28-block of a 56-index. -/
def lo28 (A : Fin 28) : Fin 56 := ⟨A.val, by omega⟩

/-- Index embedding for the lower 28-block of a 56-index. -/
def hi28 (A : Fin 28) : Fin 56 := ⟨A.val + 28, by omega⟩

/-- `expand_ijkl` of the source: expand a 28×28 block to an 8×8×8×8 tensor through
the antisymmetric pair basis. -/
noncomputable def expand_ijkl (t_ab : Fin 28 → Fin 28 → ℂ) (i j I J : Fin 8) : ℂ :=
  (1 / 2 : ℂ) * ∑ B, (∑ A, t_ab A B * m_28_8_8 A i j) * m_28_8_8 B I J

/-- `t_u_ijIJ = expand_ijkl(vielbein[:28, :28])`. -/
noncomputable def t_u_ijIJ (v70 : Fin 70 → ℝ) (i j I J : Fin 8) : ℂ :=
  expand_ijkl (fun A B => t_complex_vielbein v70 (lo28 A) (lo28 B)) i j I J

/-- `t_u_klKL = expand_ijkl(vielbein[28:, 28:])`. -/
noncomputable def t_u_klKL (v70 : Fin 70 → ℝ) (i j I J : Fin 8) : ℂ :=
  expand_ijkl (fun A B => t_complex_vielbein v70 (hi28 A) (hi28 B)) i j I J

/-- `t_v_ijKL = expand_ijkl(vielbein[:28, 28:])`. -/
noncomputable def t_v_ijKL (v70 : Fin 70 → ℝ) (i j I J : Fin 8) : ℂ :=
  expand_ijkl (fun A B => t_complex_vielbein v70 (lo28 A) (hi28 B)) i j I J

/-- `t_v_klIJ = expand_ijkl(vielbein[28:, :28])`. -/
noncomputable def t_v_klIJ (v70 : Fin 70 → ℝ) (i j I J : Fin 8) : ℂ :=
  expand_ijkl (fun A B => t_complex_vielbein v70 (hi28 A) (lo28 B)) i j I J

/-- `t_uv = t_u_klKL + t_v_klIJ`. -/
noncomputable def t_uv (v70 : Fin 70 → ℝ) (i j I J : Fin 8) : ℂ :=
  t_u_klKL v70 i j I J + t_v_klIJ v70 i j I J

/-- `t_uuvv = einsum('lmJK,kmKI->lkIJ', u, u) - einsum('lmJK,kmKI->lkIJ', v, v)`. -/
noncomputable def t_uuvv (v70 : Fin 70 → ℝ) (l k I J : Fin 8) : ℂ :=
  (∑ m, ∑ K, t_u_ijIJ v70 l m J K * t_u_klKL v70 k m K I) -
    ∑ m, ∑ K, t_v_ijKL v70 l m J K * t_v_klIJ v70 k m K I

/-- `t_T = einsum('ijIJ,lkIJ->lkij', t_uv, t_uuvv)`: the T-tensor. -/
noncomputable def t_T (v70 : Fin 70 → ℝ) (l k i j : Fin 8) : ℂ :=
  ∑ I, ∑ J, t_uv v70 i j I J * t_uuvv v70 l k I J

/-- `t_A1 = (-4/21) * tf.trace(einsum('mijn->ijmn', t_T))`. -/
noncomputable def t_A1 (v70 : Fin 70 → ℝ) (i j : Fin 8) : ℂ :=
  (-4 / 21 : ℂ) * ∑ m, t_T v70 m i j m

/-- `t_A2 = (-4/9) * (t_T + einsum('lijk->ljki', t_T) + einsum('lijk->lkij', t_T))`. -/
noncomputable def t_A2 (v70 : Fin 70 → ℝ) (l i j k : Fin 8) : ℂ :=
  (-4 / 9 : ℂ) * (t_T v70 l i j k + t_T v70 l k i j + t_T v70 l j k i)

/-- `t_potential = t_A1_potential + t_A2_potential`. -/
noncomputable def t_potential (v70 : Fin 70 → ℝ) : ℝ :=
  (-3 / 4 : ℝ) *
      ((∑ i, ∑ j, (t_A1 v70 i j).re * (t_A1 v70 i j).re) +
        ∑ i, ∑ j, (t_A1 v70 i j).im * (t_A1 v70 i j).im) +
    (1 / 24 : ℝ) *
      ((∑ i, ∑ j, ∑ k, ∑ l, (t_A2 v70 i j k l).re * (t_A2 v70 i j k l).re) +
        ∑ i, ∑ j, ∑ k, ∑ l, (t_A2 v70 i j k l).im * (t_A2 v70 i j k l).im)

/-! ## Stationarity (`tf_so8_sugra_stationarity`) -/

/-- `t_x0 = 4*einsum('mi,mjkl->ijkl', A1, A2) - 3*einsum('mnij,nklm->ijkl', A2, A2)`. -/
noncomputable def t_x0 (a1 : Fin 8 → Fin 8 → ℂ) (a2 : Fin 8 → Fin 8 → Fin 8 → Fin 8 → ℂ)
    (i j k l : Fin 8) : ℂ :=
  4 * (∑ m, a1 m i * a2 m j k l) - 3 * ∑ m, ∑ n, a2 m n i j * a2 n k l m

/-- `t_x_real_sd = einsum('aijkl,ijkl->a', proj_sd, Re X0)`. -/
noncomputable def t_x_real_sd (a1 : Fin 8 → Fin 8 → ℂ)
    (a2 : Fin 8 → Fin 8 → Fin 8 → Fin 8 → ℂ) (a : Fin 35) : ℝ :=
  ∑ i, ∑ j, ∑ k, ∑ l,
    ((get_proj_35_8888 true a i j k l : ℚ) : ℝ) * (t_x0 a1 a2 i j k l).re

/-- `t_x_imag_asd = einsum('aijkl,ijkl->a', proj_asd, Im X0)`. -/
noncomputable def t_x_imag_asd (a1 : Fin 8 → Fin 8 → ℂ)
    (a2 : Fin 8 → Fin 8 → Fin 8 → Fin 8 → ℂ) (a : Fin 35) : ℝ :=
  ∑ i, ∑ j, ∑ k, ∑ l,
    ((get_proj_35_8888 false a i j k l : ℚ) : ℝ) * (t_x0 a1 a2 i j k l).im

/-- `tf_so8_sugra_stationarity(t_a1, t_a2)`: squared norm of both projections. -/
noncomputable def tf_so8_sugra_stationarity (a1 : Fin 8 → Fin 8 → ℂ)
    (a2 : Fin 8 → Fin 8 → Fin 8 → Fin 8 → ℂ) : ℝ :=
  (∑ a, t_x_real_sd a1 a2 a * t_x_real_sd a1 a2 a) +
    ∑ a, t_x_imag_asd a1 a2 a * t_x_imag_asd a1 a2 a

/-! ## Scan driver (`scan_many`) -/

/-- IEEE-754-style classification of the float results handed back by a scan attempt:
a finite value, one of the infinities, or NaN. -/
inductive FP : Type where
  | finite : ℚ → FP
  | inf : FP
  | neginf : FP
  | nan : FP
deriving DecidableEq

/-- The comparison `x < q` of a scan result against a finite literal threshold,
with IEEE semantics: NaN compares false, `+inf < q` is false, `-inf < q` is true. -/
def FP.ltq : FP → ℚ → Bool
  | FP.finite x, y => decide (x < y)
  | FP.inf, _ => false
  | FP.neginf, _ => true
  | FP.nan, _ => false

/-- The `while len(ret) < num_to_produce` loop of `scan_many`, with explicit fuel and
an instrumentation trace of the `(seed, scale)` arguments of every `scanner` call.
Returns `none` in place of divergence when the fuel runs out mid-loop. -/
def scan_many_aux {α : Type} (scanner : ℕ → ℚ → FP × FP × α) (num : ℕ) :
    ℕ → ℕ → List (FP × FP × α) → List (ℕ × ℚ) →
      List (ℕ × ℚ) × Option (List (FP × FP × α))
  | 0, _, ret, calls =>
      if num ≤ ret.length then (calls, some ret) else (calls, none)
  | fuel + 1, seed, ret, calls =>
      if num ≤ ret.length then (calls, some ret)
      else
        let scanned := scanner (seed + 1) 2
        scan_many_aux scanner num fuel (seed + 1)
          (if FP.ltq scanned.2.1 (1 / 1000) then ret ++ [scanned] else ret)
          (calls ++ [(seed + 1, 2)])

/-- `scan_many(scanner, num_to_produce)` of the source (result component). -/
def scan_many {α : Type} (scanner : ℕ → ℚ → FP × FP × α) (num fuel : ℕ) :
    Option (List (FP × FP × α)) :=
  (scan_many_aux scanner num fuel 0 [] []).2

/-- The trace of scanner calls made by `scan_many`. -/
def scan_many_calls {α : Type} (scanner : ℕ → ℚ → FP × FP × α) (num fuel : ℕ) :
    List (ℕ × ℚ) :=
  (scan_many_aux scanner num fuel 0 [] []).1

/-! ## Claim C8: full antisymmetry of the projectors -/

/-- The sign returned by `permutation_sign` (as used while scattering the projector:
its input there is always a genuine permutation, so the default is never taken). -/
def psi (p : List ℕ) : ℤ := (permutation_sign p).getD 0

/-- The raw scattered projector array, before the final division by 24. -/
def projR (sd : Bool) (k : ℕ × List ℕ) : ℚ :=
  applyWrites (projWrites sd) (fun _ => 0) k

/-- The last four indices of a projector cell, as a list. -/
def keyOf (t : Fin 4 → Fin 8) : List ℕ :=
  [(t 0).val, (t 1).val, (t 2).val, (t 3).val]

/-- Composition of an index list with a permutation of the four positions. -/
def pcomp (σ : Equiv.Perm (Fin 4)) (p : List ℕ) : List ℕ :=
  [p.getD (σ 0).val 0, p.getD (σ 1).val 0, p.getD (σ 2).val 0, p.getD (σ 3).val 0]

/-! ## Claim C9: correctness of `permutation_sign` -/

/-- The sign of a permutation of `Fin n`, as an integer. -/
def signZ {n : ℕ} (τ : Equiv.Perm (Fin n)) : ℤ := ((Equiv.Perm.sign τ : ℤˣ) : ℤ)

/-- The working list `q` of `permutation_sign` represents the permutation `τ`. -/
def RepL (n : ℕ) (q : List ℕ) (τ : Equiv.Perm (Fin n)) : Prop :=
  q.length = n ∧ ∀ v : Fin n, q.getD v.val 0 = (τ v).val

/-- Number of non-fixed points; the termination measure of the inner `while` loop. -/
noncomputable def unfixed {n : ℕ} (τ : Equiv.Perm (Fin n)) : ℕ :=
  (Finset.univ.filter fun v : Fin n => τ v ≠ v).card

/-- Integer core of the gamma table (proof layer, checked against `gamma_vsc`). -/
def gammaZ (i s c : Fin 8) : ℤ :=
  if c.val = (gammaPairN i.val s.val).1 then
    (if (gammaPairN i.val s.val).2 = (1 : ℚ) then 1 else -1)
  else 0

/-- Integer core of `g_ijcC`. -/
def g2Z (i j c C : Fin 8) : ℤ := ∑ s, gammaZ i s c * gammaZ j s C

/-- Integer core of `g_ijklcC`. -/
def g6Z (i j k l c C : Fin 8) : ℤ := ∑ d, g2Z i j c d * g2Z k l d C

/-- Integer core of the antisymmetrised sum defining `gamma_vvvvcc` (before /24). -/
def S4Z (i j k l c C : Fin 8) : ℤ :=
  (perm4.map fun p =>
    (permutation_sign p).getD 0 *
      g6Z (permSel [i, j, k, l] p 0) (permSel [i, j, k, l] p 1)
        (permSel [i, j, k, l] p 2) (permSel [i, j, k, l] p 3) c C).sum

/-- The 35th noncompact e7 generator as a 56×56 matrix. -/
noncomputable def gen35M : Mat56 := fun I J => e7_t_a_ij_kl ⟨35, by omega⟩ I J

theorem applyWrites_nil {K V : Type} [DecidableEq K] (f : K → V) :
    applyWrites [] f = f := rfl

theorem applyWrites_cons {K V : Type} [DecidableEq K] (kv : K × V) (ws : List (K × V))
    (f : K → V) : applyWrites (kv :: ws) f = applyWrites ws (Function.update f kv.1 kv.2) := rfl

theorem applyWrites_notMem {K V : Type} [DecidableEq K] (ws : List (K × V)) (f : K → V)
    (k : K) (hk : k ∉ ws.map Prod.fst) : applyWrites ws f k = f k := by
  induction ws generalizing f with
  | nil => rfl
  | cons kv ws ih =>
      simp only [List.map_cons, List.mem_cons] at hk
      push_neg at hk
      rw [applyWrites_cons, ih _ hk.2, Function.update_noteq (Ne.symm (Ne.symm hk.1))]

theorem applyWrites_mem {K V : Type} [DecidableEq K] (ws : List (K × V)) (f : K → V)
    (k : K) (v : V) (hnd : (ws.map Prod.fst).Nodup) (hkv : (k, v) ∈ ws) :
    applyWrites ws f k = v := by
  induction ws generalizing f with
  | nil => cases hkv
  | cons kv ws ih =>
      simp only [List.map_cons, List.nodup_cons] at hnd
      rcases List.mem_cons.mp hkv with h | h
      · have hk1 : k = kv.1 := congrArg Prod.fst h
        have hv1 : v = kv.2 := congrArg Prod.snd h
        subst hk1 hv1
        rw [applyWrites_cons, applyWrites_notMem _ _ _ hnd.1, Function.update_same]
      · rw [applyWrites_cons]
        exact ih _ hnd.2 h

theorem gammaWrites_eq : gammaWrites = gammaWritesL := by decide

theorem gamma_vsc_eq_table : ∀ i s c, gamma_vsc i s c = gammaTable i s c := by
  have h : ∀ i s c : Fin 8,
      applyWrites gammaWritesL (fun _ => 0) (i.val, s.val, c.val) = gammaTable i s c := by
    decide
  intro i s c
  rw [gamma_vsc, gammaWrites_eq]
  exact h i s c

/-! ## Claims C7 and C4 -/

/-- C7: the 8×8×8 array built by `Spin8._get_gamma_vsc` has, for each of the 64
(vector, spinor) index pairs, exactly one nonzero cospinor entry, that entry is ±1,
and in total the array has exactly 64 nonzero entries. -/
theorem claim_C7 :
    (∀ v s : Fin 8, ∃! c : Fin 8, gamma_vsc v s c ≠ 0) ∧
    (∀ v s c : Fin 8, gamma_vsc v s c = 0 ∨ gamma_vsc v s c = 1 ∨ gamma_vsc v s c = -1) ∧
    (Finset.univ.filter fun t : Fin 8 × Fin 8 × Fin 8 =>
        gamma_vsc t.1 t.2.1 t.2.2 ≠ 0).card = 64 := by
  refine ⟨?_, ?_, ?_⟩
  · simp only [gamma_vsc_eq_table, ExistsUnique]
    decide
  · simp only [gamma_vsc_eq_table]
    decide
  · simp only [gamma_vsc_eq_table]
    decide

/-- Entries of the su(8) generators at indices `35 + a`: the sign pattern actually
written by the source loop (`-1` at the pair, `+1` at the transposed pair). -/
theorem t_aij_hi (a : Fin 28) (m n : ℕ) (hmn : ij_map.getD a.val (0, 0) = (m, n))
    (i j : Fin 8) :
    t_aij ⟨35 + a.val, by omega⟩ i j =
      if i.val = m ∧ j.val = n then -1
      else if i.val = n ∧ j.val = m then 1
      else 0 := by
  have h35 : ¬(35 + a.val < 35) := by omega
  simp only [t_aij, Nat.add_sub_cancel_left, dif_neg h35, hmn, Prod.mk.injEq]
  by_cases h1 : i.val = m ∧ j.val = n
  · simp [h1]
  · by_cases h2 : i.val = n ∧ j.val = m
    · simp [h1, h2, h2.1, h2.2]
    · have h2s : ¬(j.val = m ∧ i.val = n) := fun hc => h2 ⟨hc.2, hc.1⟩
      simp [h1, h2, h2s]

/-- C4 counterexample: the generator at index 35 (pair `(0, 1)` at position 0 of the
lexicographic pair list) carries `-1`, not `+1`, at position `(0, 1)`. -/
theorem claim_C4_counterexample :
    t_aij ⟨35, by norm_num⟩ 0 1 = -1 ∧ t_aij ⟨35, by norm_num⟩ 0 1 ≠ 1 := by
  have hv := t_aij_hi ⟨0, by norm_num⟩ 0 1 (by decide) 0 1
  norm_num at hv
  exact ⟨hv, by rw [hv]; norm_num⟩

/-- C4 (amended): generators `0..34` equal `1j` times the 35 symmetric-traceless basis
matrices; for the canonical pair `(m, n)` (`m < n`) at position `a` of the
lexicographic pair list, the generator at index `35 + a` has entry `-1` at `(m, n)`,
`+1` at `(n, m)`, and `0` elsewhere (the signs are opposite to the claimed ones). -/
theorem claim_C4 :
    (∀ (a : Fin 35) (i j : Fin 8), t_aij ⟨a.val, by omega⟩ i j = Complex.I * m_35_8_8 a i j) ∧
    (∀ (a : Fin 28) (m n : ℕ), ij_map.getD a.val (0, 0) = (m, n) →
      ∀ i j : Fin 8,
        t_aij ⟨35 + a.val, by omega⟩ i j =
          if i.val = m ∧ j.val = n then -1
          else if i.val = n ∧ j.val = m then 1
          else 0) := by
  constructor
  · intro a i j
    simp [t_aij, a.isLt]
  · intro a m n hmn i j
    exact t_aij_hi a m n hmn i j

/-- C4 witness: the amended statement applied at `a = 0`, pair `(0, 1)`. -/
theorem claim_C4_witness :
    t_aij ⟨35 + 0, by omega⟩ 1 0 = 1 := by
  have h := claim_C4.2 ⟨0, by norm_num⟩ 0 1 (by decide) 1 0
  simpa using h

/-! ## Claim C10: the E7 loop body is iteration-invariant -/

theorem e7_body_idem (s : E7State) : e7_body (e7_body s) = e7_body s := by
  funext a i j
  by_cases h1 : a.val < 35 ∧ 28 ≤ i.val ∧ j.val < 28
  · simp only [e7_body, dif_pos h1]
  · by_cases h2 : a.val < 35 ∧ i.val < 28 ∧ 28 ≤ j.val
    · simp only [e7_body, dif_neg h1, dif_pos h2]
    · by_cases h3 : 35 ≤ a.val ∧ a.val < 70 ∧ 28 ≤ i.val ∧ j.val < 28
      · simp only [e7_body, dif_neg h1, dif_neg h2, dif_pos h3]
      · by_cases h4 : 35 ≤ a.val ∧ a.val < 70 ∧ i.val < 28 ∧ 28 ≤ j.val
        · simp only [e7_body, dif_neg h1, dif_neg h2, dif_neg h3, dif_pos h4]
        · by_cases h5 : 70 ≤ a.val ∧ i.val < 28 ∧ j.val < 28
          · simp only [e7_body, dif_neg h1, dif_neg h2, dif_neg h3, dif_neg h4, dif_pos h5]
          · by_cases h6 : 70 ≤ a.val ∧ 28 ≤ i.val ∧ 28 ≤ j.val
            · simp only [e7_body, dif_neg h1, dif_neg h2, dif_neg h3, dif_neg h4,
                dif_neg h5, dif_pos h6]
            · simp only [e7_body, dif_neg h1, dif_neg h2, dif_neg h3, dif_neg h4,
                dif_neg h5, dif_neg h6]

theorem e7_fold_succ (z : E7State) (n : ℕ) :
    (List.range (n + 1)).foldl (fun s _ => e7_body s) z = e7_body z := by
  induction n with
  | zero => rfl
  | succ n ih =>
      rw [List.range_succ, List.foldl_append, ih]
      exact e7_body_idem z

/-- C10: the `for a in range(35)` loop of `E7.__init__` never uses its loop variable
and every iteration assigns the same values to the same disjoint slices, so the
generator tensor it produces equals the one obtained by executing the body once. -/
theorem claim_C10 : e7_t_a_ij_kl = e7_t_once := by
  show (List.range (34 + 1)).foldl (fun s _ => e7_body s) (fun _ _ _ => 0) = e7_t_once
  rw [e7_fold_succ]
  rfl

/-! ## Claim C2: A1, A2 and the potential from the T-tensor -/

/-- C2: with `T` the T-tensor of the potential evaluation, the returned tensors obey
`A1[i,j] = -4/21 * Σ_m T[m,i,j,m]`,
`A2[l,i,j,k] = -4/9 * (T[l,i,j,k] + T[l,j,k,i] + T[l,k,i,j])`, and the potential is
`-3/4 * (‖Re A1‖² + ‖Im A1‖²) + 1/24 * (‖Re A2‖² + ‖Im A2‖²)` (entrywise squares). -/
theorem claim_C2 (v70 : Fin 70 → ℝ) :
    (∀ i j, t_A1 v70 i j = (-4 / 21 : ℂ) * ∑ m, t_T v70 m i j m) ∧
    (∀ l i j k, t_A2 v70 l i j k =
      (-4 / 9 : ℂ) * (t_T v70 l i j k + t_T v70 l j k i + t_T v70 l k i j)) ∧
    t_potential v70 =
      (-3 / 4 : ℝ) *
          ((∑ i, ∑ j, (t_A1 v70 i j).re ^ 2) + ∑ i, ∑ j, (t_A1 v70 i j).im ^ 2) +
        (1 / 24 : ℝ) *
          ((∑ l, ∑ i, ∑ j, ∑ k, (t_A2 v70 l i j k).re ^ 2) +
            ∑ l, ∑ i, ∑ j, ∑ k, (t_A2 v70 l i j k).im ^ 2) := by
  refine ⟨fun i j => rfl, fun l i j k => by rw [t_A2]; ring, ?_⟩
  simp only [t_potential, pow_two]

/-! ## Claim C3: the stationarity evaluator -/

/-- C3: the stationarity evaluator returns `s·s + t·t` where `s` projects
`Re X0` on the self-dual projector, `t` projects `Im X0` on the anti-self-dual
projector, and `X0[i,j,k,l] = 4 Σ_m A1[m,i] A2[m,j,k,l] - 3 Σ_{m,n} A2[m,n,i,j] A2[n,k,l,m]`. -/
theorem claim_C3 (a1 : Fin 8 → Fin 8 → ℂ) (a2 : Fin 8 → Fin 8 → Fin 8 → Fin 8 → ℂ) :
    tf_so8_sugra_stationarity a1 a2 =
      (∑ a : Fin 35,
          (∑ i, ∑ j, ∑ k, ∑ l,
            ((get_proj_35_8888 true a i j k l : ℚ) : ℝ) *
              (4 * (∑ m, a1 m i * a2 m j k l) -
                3 * ∑ m, ∑ n, a2 m n i j * a2 n k l m).re) ^ 2) +
        ∑ a : Fin 35,
          (∑ i, ∑ j, ∑ k, ∑ l,
            ((get_proj_35_8888 false a i j k l : ℚ) : ℝ) *
              (4 * (∑ m, a1 m i * a2 m j k l) -
                3 * ∑ m, ∑ n, a2 m n i j * a2 n k l m).im) ^ 2 := by
  simp only [tf_so8_sugra_stationarity, t_x_real_sd, t_x_imag_asd, t_x0, pow_two]

/-! ## Scan driver invariants -/

theorem seed_map_shift (seed k : ℕ) :
    (List.range (k + 1)).map (fun t => (seed + 1 + t, (2 : ℚ))) =
      (seed + 1, (2 : ℚ)) :: (List.range k).map (fun t => (seed + 1 + 1 + t, (2 : ℚ))) := by
  rw [List.range_succ_eq_map, List.map_cons, List.map_map]
  refine List.cons_eq_cons.mpr ⟨by simp, List.map_congr_left fun t _ => ?_⟩
  simp only [Function.comp_apply, Prod.mk.injEq]
  exact ⟨by omega, trivial⟩

theorem scan_map_shift {α : Type} (scanner : ℕ → ℚ → FP × FP × α) (seed k : ℕ) :
    (List.range (k + 1)).map (fun t => scanner (seed + 1 + t) 2) =
      scanner (seed + 1) 2 :: (List.range k).map (fun t => scanner (seed + 1 + 1 + t) 2) := by
  rw [List.range_succ_eq_map, List.map_cons, List.map_map]
  refine List.cons_eq_cons.mpr ⟨by simp, List.map_congr_left fun t _ => ?_⟩
  simp only [Function.comp_apply]
  exact congrArg (fun n => scanner n 2) (by omega)

theorem scan_many_aux_sound {α : Type} (scanner : ℕ → ℚ → FP × FP × α) (num : ℕ) :
    ∀ (fuel seed : ℕ) (ret : List (FP × FP × α)) (calls cs : List (ℕ × ℚ))
      (l : List (FP × FP × α)),
      scan_many_aux scanner num fuel seed ret calls = (cs, some l) →
      ret.length ≤ num →
      l.length = num ∧
      ∃ k, cs = calls ++ (List.range k).map (fun t => (seed + 1 + t, (2 : ℚ))) ∧
        l = ret ++ ((List.range k).map fun t => scanner (seed + 1 + t) 2).filter
            (fun r => FP.ltq r.2.1 (1 / 1000)) ∧
        ((∀ s sc, FP.ltq (scanner s sc).2.1 (1 / 1000) = true) → ret.length + k = num) := by
  intro fuel
  induction fuel with
  | zero =>
      intro seed ret calls cs l h hle
      by_cases hc : num ≤ ret.length
      · simp only [scan_many_aux] at h
        rw [if_pos hc] at h
        have hcs : calls = cs := congrArg Prod.fst h
        obtain rfl : ret = l := Option.some.inj (congrArg Prod.snd h)
        exact ⟨le_antisymm hle hc, 0, by simp [hcs.symm], by simp, fun _ => by omega⟩
      · simp only [scan_many_aux] at h
        rw [if_neg hc] at h
        exact absurd (congrArg Prod.snd h) (by simp)
  | succ fuel ih =>
      intro seed ret calls cs l h hle
      by_cases hc : num ≤ ret.length
      · simp only [scan_many_aux] at h
        rw [if_pos hc] at h
        have hcs : calls = cs := congrArg Prod.fst h
        obtain rfl : ret = l := Option.some.inj (congrArg Prod.snd h)
        exact ⟨le_antisymm hle hc, 0, by simp [hcs.symm], by simp, fun _ => by omega⟩
      · simp only [scan_many_aux] at h
        rw [if_neg hc] at h
        have hlt : ret.length < num := lt_of_not_le hc
        by_cases hacc : FP.ltq (scanner (seed + 1) 2).2.1 (1 / 1000) = true
        · simp only [hacc, if_true] at h
          obtain ⟨hlen, k, hcs, hl, hcount⟩ :=
            ih (seed + 1) (ret ++ [scanner (seed + 1) 2]) (calls ++ [(seed + 1, 2)]) cs l h
              (by simpa using hlt)
          refine ⟨hlen, k + 1, ?_, ?_, ?_⟩
          · rw [hcs, List.append_assoc, seed_map_shift, List.singleton_append]
          · rw [hl, List.append_assoc, scan_map_shift, List.filter_cons, if_pos hacc,
              List.singleton_append]
          · intro hall
            have := hcount hall
            simp only [List.length_append, List.length_singleton] at this
            omega
        · simp only [hacc, if_false, Bool.false_eq_true] at h
          obtain ⟨hlen, k, hcs, hl, hcount⟩ :=
            ih (seed + 1) ret (calls ++ [(seed + 1, 2)]) cs l h hle
          refine ⟨hlen, k + 1, ?_, ?_, ?_⟩
          · rw [hcs, List.append_assoc, seed_map_shift, List.singleton_append]
          · rw [hl, scan_map_shift, List.filter_cons, if_neg hacc]
          · intro hall
            exact absurd (hall (seed + 1) 2) (by simpa using hacc)

/-! ## Claims C6 and C5 -/

/-- C6: whenever `scan_many` returns, it has called the scanner with seeds 1, 2, 3, …
in increasing order, each at scale 2.0, recorded exactly the attempts whose
stationarity passes `< 1e-3`, and stopped with exactly `num` accepted results; with an
always-accepting scanner and `num = 1`, exactly one scanner call is made. -/
theorem claim_C6 {α : Type} (scanner : ℕ → ℚ → FP × FP × α) (num fuel : ℕ)
    (l : List (FP × FP × α)) (h : scan_many scanner num fuel = some l) :
    l.length = num ∧
    (∀ r ∈ l, FP.ltq r.2.1 (1 / 1000) = true) ∧
    (∃ k, scan_many_calls scanner num fuel =
        (List.range k).map (fun t => (t + 1, (2 : ℚ))) ∧
      l = ((List.range k).map fun t => scanner (t + 1) 2).filter
          (fun r => FP.ltq r.2.1 (1 / 1000))) ∧
    ((∀ s sc, FP.ltq (scanner s sc).2.1 (1 / 1000) = true) → num = 1 →
      (scan_many_calls scanner num fuel).length = 1) := by
  have h2 : scan_many_aux scanner num fuel 0 [] [] =
      (scan_many_calls scanner num fuel, some l) := by
    rw [scan_many_calls, ← h]
    rfl
  obtain ⟨hlen, k, hcs, hl, hcount⟩ :=
    scan_many_aux_sound scanner num fuel 0 [] [] (scan_many_calls scanner num fuel) l h2
      (by simp)
  have hseed : (fun t => (0 + 1 + t, (2 : ℚ))) = fun t : ℕ => (t + 1, (2 : ℚ)) := by
    funext t
    simp only [Prod.mk.injEq]
    exact ⟨by omega, trivial⟩
  have hscan : (fun t => scanner (0 + 1 + t) 2) = fun t : ℕ => scanner (t + 1) 2 := by
    funext t
    exact congrArg (fun n => scanner n 2) (by omega)
  rw [hseed] at hcs
  rw [hscan] at hl
  simp only [List.nil_append] at hcs hl
  refine ⟨hlen, ?_, ⟨k, hcs, hl⟩, ?_⟩
  · intro r hr
    rw [hl] at hr
    exact (List.mem_filter.mp hr).2
  · intro hall h1
    have hk := hcount hall
    simp only [List.length_nil] at hk
    rw [hcs, List.length_map, List.length_range]
    omega

theorem ltq_finite_zero : FP.ltq (FP.finite 0) (1 / 1000) = true :=
  decide_eq_true (by norm_num)

theorem ltq_finite_zero_inv : FP.ltq (FP.finite 0) (1000⁻¹ : ℚ) = true :=
  decide_eq_true (by norm_num)

/-- C6 witness: a concrete always-accepting scanner with `num = 1` makes exactly one
call and returns one accepted result. -/
theorem claim_C6_witness :
    ∃ l, scan_many (fun _ _ => (FP.finite 0, FP.finite 0, (0 : ℕ))) 1 3 = some l ∧
      l.length = 1 ∧
      (scan_many_calls (fun _ _ => (FP.finite 0, FP.finite 0, (0 : ℕ))) 1 3).length = 1 := by
  have hrun : scan_many (fun _ _ => (FP.finite 0, FP.finite 0, (0 : ℕ))) 1 3 =
      some [(FP.finite 0, FP.finite 0, 0)] := by
    simp [scan_many, scan_many_aux, ltq_finite_zero, ltq_finite_zero_inv]
  have h := claim_C6 (fun _ _ => (FP.finite 0, FP.finite 0, (0 : ℕ))) 1 3 _ hrun
  refine ⟨_, hrun, h.1, h.2.2.2 (fun s sc => ?_) rfl⟩
  show FP.ltq (FP.finite 0) (1 / 1000) = true
  exact ltq_finite_zero

/-- C5 counterexample: the driver's acceptance test inspects only the stationarity
value, so an attempt with NaN potential but small finite stationarity is accepted,
contradicting the claim that any non-finite potential or stationarity is rejected. -/
theorem claim_C5_counterexample :
    ¬ ∀ (scanner : ℕ → ℚ → FP × FP × ℕ) (num fuel : ℕ) (l : List (FP × FP × ℕ)),
        scan_many scanner num fuel = some l →
        ∀ r ∈ l, r.1 ≠ FP.nan ∧ r.1 ≠ FP.inf ∧ r.2.1 ≠ FP.nan ∧ r.2.1 ≠ FP.inf := by
  intro hclaim
  have hrun : scan_many (fun _ _ => (FP.nan, FP.finite 0, (0 : ℕ))) 1 1 =
      some [(FP.nan, FP.finite 0, 0)] := by
    simp [scan_many, scan_many_aux, ltq_finite_zero, ltq_finite_zero_inv]
  have := hclaim _ 1 1 _ hrun (FP.nan, FP.finite 0, 0) (by simp)
  exact this.1 rfl

/-- C5 (amended): a non-finite (NaN or +infinity) stationarity value fails the
acceptance comparison against 1e-3 (IEEE semantics: NaN comparisons are false), so no
accepted result carries such a stationarity; the returned potential value is not
inspected by the driver, and a non-finite potential alone does not cause rejection. -/
theorem claim_C5 {α : Type} (scanner : ℕ → ℚ → FP × FP × α) (num fuel : ℕ)
    (l : List (FP × FP × α)) (h : scan_many scanner num fuel = some l) :
    ∀ r ∈ l, r.2.1 ≠ FP.nan ∧ r.2.1 ≠ FP.inf := by
  have h2 : scan_many_aux scanner num fuel 0 [] [] =
      ((scan_many_aux scanner num fuel 0 [] []).1, some l) := by
    rw [← h]
    rfl
  obtain ⟨hlen, k, hcs, hl, hcount⟩ :=
    scan_many_aux_sound scanner num fuel 0 [] [] _ l h2 (by simp)
  intro r hr
  rw [hl] at hr
  simp only [List.nil_append] at hr
  have hacc := (List.mem_filter.mp hr).2
  constructor
  · intro he
    rw [he] at hacc
    exact Bool.false_ne_true hacc
  · intro he
    rw [he] at hacc
    exact Bool.false_ne_true hacc

/-- C5 witness: the amended statement applied to a concrete run. -/
theorem claim_C5_witness :
    (FP.finite 0 : FP) ≠ FP.nan ∧ (FP.finite 0 : FP) ≠ FP.inf := by
  have hrun : scan_many (fun _ _ => (FP.finite 0, FP.finite 0, (0 : ℕ))) 1 3 =
      some [(FP.finite 0, FP.finite 0, 0)] := by
    simp [scan_many, scan_many_aux, ltq_finite_zero, ltq_finite_zero_inv]
  exact claim_C5 _ 1 3 _ hrun (FP.finite 0, FP.finite 0, 0) (by simp)

theorem selfduals_length : ∀ sd : Bool, (selfduals sd).length = 35 := by decide

theorem perm4_length : ∀ p ∈ perm4, p.length = 4 := by decide

theorem pcomp_mem_sign : ∀ p ∈ perm4, ∀ σ : Equiv.Perm (Fin 4),
    pcomp σ p ∈ perm4 ∧ psi (pcomp σ p) = psi p * ((Equiv.Perm.sign σ : ℤˣ) : ℤ) := by
  decide

theorem perm4_mem_lt : ∀ p ∈ perm4, ∀ x ∈ p, x < 4 := by decide

theorem selfduals_facts : ∀ sd : Bool, ∀ e ∈ selfduals sd,
    e.2.1.length = 4 ∧ e.2.2.length = 4 ∧ (e.2.1 ++ e.2.2).Nodup := by decide

theorem keyOf_getD (t : Fin 4 → Fin 8) (v : Fin 4) :
    (keyOf t).getD v.val 0 = (t v).val := by
  fin_cases v <;> rfl

theorem keyOf_comp (t : Fin 4 → Fin 8) (σ : Equiv.Perm (Fin 4)) :
    keyOf (fun v => t (σ v)) = pcomp σ (keyOf t) := by
  simp only [pcomp, keyOf_getD]
  rfl

theorem getD_map_lt (f : ℕ → ℕ) (p : List ℕ) (i : ℕ) (hi : i < p.length) :
    (p.map f).getD i 0 = f (p.getD i 0) := by
  simp [List.getD_eq_getElem?_getD, List.getElem?_map, List.getElem?_eq_getElem, hi]

theorem pcomp_map (σ : Equiv.Perm (Fin 4)) (p : List ℕ) (hp : p.length = 4)
    (f : ℕ → ℕ) : (pcomp σ p).map f = pcomp σ (p.map f) := by
  simp only [pcomp, List.map_cons, List.map_nil]
  have h : ∀ v : Fin 4, (p.map f).getD (σ v).val 0 = f (p.getD (σ v).val 0) :=
    fun v => getD_map_lt f p (σ v).val (by rw [hp]; exact (σ v).isLt)
  rw [h 0, h 1, h 2, h 3]

theorem applyWrites_mem_of_unique {K V : Type} [DecidableEq K] (ws : List (K × V))
    (k : K) (v : V) :
    ∀ f : K → V, (k, v) ∈ ws → (∀ w ∈ ws, w.1 = k → w.2 = v) →
      applyWrites ws f k = v := by
  induction ws with
  | nil => intro f hkv _; cases hkv
  | cons kv ws ih =>
      intro f hkv huniq
      rw [applyWrites_cons]
      rcases List.mem_cons.mp hkv with h | h
      · by_cases hk : k ∈ ws.map Prod.fst
        · obtain ⟨w, hw, hw1⟩ := List.mem_map.mp hk
          have hw2 : w.2 = v := huniq w (List.mem_cons_of_mem _ hw) hw1
          have hwkv : w = (k, v) := Prod.ext hw1 hw2
          exact ih (Function.update f kv.1 kv.2) (hwkv ▸ hw)
            fun w hw hwk => huniq w (List.mem_cons_of_mem _ hw) hwk
        · rw [applyWrites_notMem _ _ _ hk, ← h, Function.update_same]
      · exact ih _ h fun w hw hwk => huniq w (List.mem_cons_of_mem _ hw) hwk

theorem getD_eq_getElem_of_lt (l : List ℕ) (i : ℕ) (hi : i < l.length) (d : ℕ) :
    l.getD i d = l[i] := by
  simp [List.getD_eq_getElem?_getD, List.getElem?_eq_getElem, hi]

/-- An arrangement of a duplicate-free 4-list determines the arranging permutation. -/
theorem arrangement_inj (S : List ℕ) (hS4 : S.length = 4) (hSnd : S.Nodup)
    (p q : List ℕ) (hp : p ∈ perm4) (hq : q ∈ perm4)
    (h : (p.map fun r => S.getD r 0) = q.map fun r => S.getD r 0) : p = q := by
  have hlp : p.length = 4 := perm4_length p hp
  have hlq : q.length = 4 := perm4_length q hq
  apply List.ext_getElem (by omega)
  intro i h1 h2
  have h1' : i < 4 := by omega
  have hgp : p.getD i 0 = p[i] := getD_eq_getElem_of_lt p i h1 0
  have hgq : q.getD i 0 = q[i] := getD_eq_getElem_of_lt q i h2 0
  have hmapped := congrArg (fun l => l.getD i 0) h
  simp only [getD_map_lt _ p i h1, getD_map_lt _ q i h2] at hmapped
  have hpi : p[i] < 4 := perm4_mem_lt p hp _ (List.getElem_mem h1)
  have hqi : q[i] < 4 := perm4_mem_lt q hq _ (List.getElem_mem h2)
  rw [hgp, hgq] at hmapped
  have e1 := getD_eq_getElem_of_lt S (p[i]) (by omega) 0
  have e2 := getD_eq_getElem_of_lt S (q[i]) (by omega) 0
  rw [e1, e2] at hmapped
  have hinj := List.nodup_iff_injective_get.mp hSnd
  have hfin : (⟨p[i], by omega⟩ : Fin S.length) = ⟨q[i], by omega⟩ :=
    hinj (by simpa [List.get_eq_getElem] using hmapped)
  exact congrArg Fin.val hfin

/-- An arrangement of `S` is never an arrangement of a list disjoint from `S`. -/
theorem arrangement_disjoint (S T : List ℕ) (hS4 : S.length = 4) (hT4 : T.length = 4)
    (hdisj : List.Disjoint S T) (p q : List ℕ) (hp : p ∈ perm4) (hq : q ∈ perm4)
    (h : (p.map fun r => S.getD r 0) = q.map fun r => T.getD r 0) : False := by
  have hlp : p.length = 4 := perm4_length p hp
  have hlq : q.length = 4 := perm4_length q hq
  have hmapped := congrArg (fun l => l.getD 0 0) h
  simp only [getD_map_lt _ p 0 (by omega), getD_map_lt _ q 0 (by omega)] at hmapped
  have hp0 : p.getD 0 0 < 4 := by
    rw [getD_eq_getElem_of_lt p 0 (by omega)]
    exact perm4_mem_lt p hp _ (List.getElem_mem (by omega))
  have hq0 : q.getD 0 0 < 4 := by
    rw [getD_eq_getElem_of_lt q 0 (by omega)]
    exact perm4_mem_lt q hq _ (List.getElem_mem (by omega))
  rw [getD_eq_getElem_of_lt S _ (by omega), getD_eq_getElem_of_lt T _ (by omega)]
    at hmapped
  exact hdisj (List.getElem_mem (l := S) (by omega))
    (hmapped ▸ List.getElem_mem (l := T) (by omega))

theorem projWrites_forms (sd : Bool) (w : (ℕ × List ℕ) × ℚ) (hw : w ∈ projWrites sd) :
    ∃ (n : ℕ) (e : Int × List ℕ × List ℕ) (p : List ℕ),
      (selfduals sd)[n]? = some e ∧ p ∈ perm4 ∧
      (w = ((n, p.map fun q => e.2.1.getD q 0), (psi p : ℚ)) ∨
       w = ((n, p.map fun q => e.2.2.getD q 0), ((psi p * e.1 : ℤ) : ℚ))) := by
  simp only [projWrites, List.mem_flatMap] at hw
  obtain ⟨x, hx, hw⟩ := hw
  obtain ⟨p, hp, hw⟩ := hw
  refine ⟨x.1, x.2, p, List.mem_enum_iff_getElem?.mp hx, hp, ?_⟩
  simpa [psi] using hw

theorem projWrites_mem_S (sd : Bool) (n : ℕ) (e : Int × List ℕ × List ℕ) (p : List ℕ)
    (he : (selfduals sd)[n]? = some e) (hp : p ∈ perm4) :
    ((n, p.map fun q => e.2.1.getD q 0), (psi p : ℚ)) ∈ projWrites sd := by
  simp only [projWrites, List.mem_flatMap]
  refine ⟨(n, e), List.mem_enum_iff_getElem?.mpr he, p, hp, ?_⟩
  simp [psi]

theorem projWrites_mem_T (sd : Bool) (n : ℕ) (e : Int × List ℕ × List ℕ) (p : List ℕ)
    (he : (selfduals sd)[n]? = some e) (hp : p ∈ perm4) :
    ((n, p.map fun q => e.2.2.getD q 0), ((psi p * e.1 : ℤ) : ℚ)) ∈ projWrites sd := by
  simp only [projWrites, List.mem_flatMap]
  refine ⟨(n, e), List.mem_enum_iff_getElem?.mpr he, p, hp, ?_⟩
  simp [psi]

/-- Any two projector writes to the same cell store the same value. -/
theorem projWrites_key_value (sd : Bool) (w w' : (ℕ × List ℕ) × ℚ)
    (hw : w ∈ projWrites sd) (hw' : w' ∈ projWrites sd) (hk : w.1 = w'.1) :
    w.2 = w'.2 := by
  obtain ⟨n, e, p, he, hp, hform⟩ := projWrites_forms sd w hw
  obtain ⟨n', e', q, he', hq, hform'⟩ := projWrites_forms sd w' hw'
  have hmem : e ∈ selfduals sd := by
    have := List.getElem?_eq_some_iff.mp he
    obtain ⟨hn, rfl⟩ := this
    exact List.getElem_mem hn
  obtain ⟨hS4, hT4, hSTnd⟩ := selfduals_facts sd e hmem
  obtain ⟨hSnd, hTnd, hdisj⟩ := List.nodup_append.mp hSTnd
  rcases hform with hf | hf <;> rcases hform' with hf' | hf' <;>
    rw [hf] at hk ⊢ <;> rw [hf'] at hk ⊢
  all_goals
    have hn : n = n' := congrArg Prod.fst hk
    subst hn
    have hee : e = e' := Option.some.inj (he ▸ he')
    subst hee
    have hkey := congrArg Prod.snd hk
    simp only at hkey
  · rw [arrangement_inj e.2.1 hS4 hSnd p q hp hq hkey]
  · exact absurd hkey fun hh =>
      arrangement_disjoint e.2.1 e.2.2 hS4 hT4 hdisj p q hp hq hh
  · exact absurd hkey.symm fun hh =>
      arrangement_disjoint e.2.1 e.2.2 hS4 hT4 hdisj q p hq hp hh
  · rw [arrangement_inj e.2.2 hT4 hTnd p q hp hq hkey]

theorem projR_S_val (sd : Bool) (n : ℕ) (e : Int × List ℕ × List ℕ) (p : List ℕ)
    (he : (selfduals sd)[n]? = some e) (hp : p ∈ perm4) :
    projR sd (n, p.map fun q => e.2.1.getD q 0) = (psi p : ℚ) :=
  applyWrites_mem_of_unique _ _ _ _ (projWrites_mem_S sd n e p he hp)
    fun w hw hwk =>
      projWrites_key_value sd w ((n, p.map fun q => e.2.1.getD q 0), (psi p : ℚ))
        hw (projWrites_mem_S sd n e p he hp) hwk

theorem projR_T_val (sd : Bool) (n : ℕ) (e : Int × List ℕ × List ℕ) (p : List ℕ)
    (he : (selfduals sd)[n]? = some e) (hp : p ∈ perm4) :
    projR sd (n, p.map fun q => e.2.2.getD q 0) = ((psi p * e.1 : ℤ) : ℚ) :=
  applyWrites_mem_of_unique _ _ _ _ (projWrites_mem_T sd n e p he hp)
    fun w hw hwk =>
      projWrites_key_value sd w ((n, p.map fun q => e.2.2.getD q 0), ((psi p * e.1 : ℤ) : ℚ))
        hw (projWrites_mem_T sd n e p he hp) hwk

theorem projR_zero (sd : Bool) (k : ℕ × List ℕ)
    (hk : k ∉ (projWrites sd).map Prod.fst) : projR sd k = 0 :=
  applyWrites_notMem _ _ _ hk

theorem projR_perm (sd : Bool) (a : Fin 35) (σ : Equiv.Perm (Fin 4)) (t : Fin 4 → Fin 8) :
    projR sd (a.val, keyOf fun v => t (σ v)) =
      (((Equiv.Perm.sign σ : ℤˣ) : ℤ) : ℚ) * projR sd (a.val, keyOf t) := by
  have hlt : a.val < (selfduals sd).length := by
    rw [selfduals_length]
    exact a.isLt
  have he : (selfduals sd)[a.val]? = some ((selfduals sd)[a.val]) :=
    List.getElem?_eq_getElem hlt
  set e : Int × List ℕ × List ℕ := (selfduals sd)[a.val] with hedef
  have hmem : e ∈ selfduals sd := List.getElem_mem hlt
  obtain ⟨hS4, hT4, hSTnd⟩ := selfduals_facts sd e hmem
  obtain ⟨hSnd, hTnd, hdisj⟩ := List.nodup_append.mp hSTnd
  by_cases hS : ∃ p ∈ perm4, keyOf t = p.map fun q => e.2.1.getD q 0
  · obtain ⟨p, hp, hkey⟩ := hS
    obtain ⟨hmemc, hsign⟩ := pcomp_mem_sign p hp σ
    rw [keyOf_comp, hkey, ← pcomp_map σ p (perm4_length p hp),
      projR_S_val sd a.val e (pcomp σ p) he hmemc, projR_S_val sd a.val e p he hp, hsign]
    push_cast
    ring
  · by_cases hT : ∃ p ∈ perm4, keyOf t = p.map fun q => e.2.2.getD q 0
    · obtain ⟨p, hp, hkey⟩ := hT
      obtain ⟨hmemc, hsign⟩ := pcomp_mem_sign p hp σ
      rw [keyOf_comp, hkey, ← pcomp_map σ p (perm4_length p hp),
        projR_T_val sd a.val e (pcomp σ p) he hmemc, projR_T_val sd a.val e p he hp, hsign]
      push_cast
      ring
    · have hz1 : (a.val, keyOf t) ∉ (projWrites sd).map Prod.fst := by
        intro hin
        obtain ⟨w, hw, hw1⟩ := List.mem_map.mp hin
        obtain ⟨n, e', p, he', hp, hform⟩ := projWrites_forms sd w hw
        rcases hform with hf | hf <;> rw [hf] at hw1
        · have hn : n = a.val := congrArg Prod.fst hw1
          subst hn
          have hee : e' = e := Option.some.inj (he' ▸ (hedef ▸ he))
          refine hS ⟨p, hp, ?_⟩
          rw [← hee]
          exact (congrArg Prod.snd hw1).symm
        · have hn : n = a.val := congrArg Prod.fst hw1
          subst hn
          have hee : e' = e := Option.some.inj (he' ▸ (hedef ▸ he))
          refine hT ⟨p, hp, ?_⟩
          rw [← hee]
          exact (congrArg Prod.snd hw1).symm
      have hback : keyOf t = pcomp σ⁻¹ (keyOf fun v => t (σ v)) := by
        have h1 := keyOf_comp (fun v => t (σ v)) σ⁻¹
        have h2 : (fun v => t (σ (σ⁻¹ v))) = t := by
          funext v
          exact congrArg t (Equiv.Perm.apply_inv_self σ v)
        rw [← h1]
        exact congrArg keyOf h2.symm
      have hz2 : (a.val, keyOf fun v => t (σ v)) ∉ (projWrites sd).map Prod.fst := by
        intro hin
        obtain ⟨w, hw, hw1⟩ := List.mem_map.mp hin
        obtain ⟨n, e', p, he', hp, hform⟩ := projWrites_forms sd w hw
        rcases hform with hf | hf <;> rw [hf] at hw1
        · have hn : n = a.val := congrArg Prod.fst hw1
          subst hn
          have hee : e' = e := Option.some.inj (he' ▸ (hedef ▸ he))
          obtain ⟨hmemc, -⟩ := pcomp_mem_sign p hp σ⁻¹
          refine hS ⟨pcomp σ⁻¹ p, hmemc, ?_⟩
          have hkey2 : (p.map fun q => e'.2.1.getD q 0) = keyOf fun v => t (σ v) :=
            congrArg Prod.snd hw1
          rw [hback, ← hkey2, hee]
          exact (pcomp_map σ⁻¹ p (perm4_length p hp) _).symm
        · have hn : n = a.val := congrArg Prod.fst hw1
          subst hn
          have hee : e' = e := Option.some.inj (he' ▸ (hedef ▸ he))
          obtain ⟨hmemc, -⟩ := pcomp_mem_sign p hp σ⁻¹
          refine hT ⟨pcomp σ⁻¹ p, hmemc, ?_⟩
          have hkey2 : (p.map fun q => e'.2.2.getD q 0) = keyOf fun v => t (σ v) :=
            congrArg Prod.snd hw1
          rw [hback, ← hkey2, hee]
          exact (pcomp_map σ⁻¹ p (perm4_length p hp) _).symm
      rw [projR_zero sd _ hz1, projR_zero sd _ hz2, mul_zero]

/-- C8: for both parities, the 35×8×8×8×8 projector is fully antisymmetric in its
last four indices: permuting those index positions by any `σ` multiplies the entry by
the sign of `σ`. -/
theorem claim_C8 (sd : Bool) (a : Fin 35) (σ : Equiv.Perm (Fin 4)) (t : Fin 4 → Fin 8) :
    get_proj_35_8888 sd a (t (σ 0)) (t (σ 1)) (t (σ 2)) (t (σ 3)) =
      (((Equiv.Perm.sign σ : ℤˣ) : ℤ) : ℚ) *
        get_proj_35_8888 sd a (t 0) (t 1) (t 2) (t 3) := by
  have h := projR_perm sd a σ t
  show projR sd (a.val, keyOf fun v => t (σ v)) / 24 =
    _ * (projR sd (a.val, keyOf t) / 24)
  rw [h, mul_div_assoc]

theorem unfixed_le {n : ℕ} (τ : Equiv.Perm (Fin n)) : unfixed τ ≤ n := by
  calc (Finset.univ.filter fun v : Fin n => τ v ≠ v).card
      ≤ Finset.univ.card := Finset.card_filter_le _ _
    _ = n := by simp

theorem getD_set_self (l : List ℕ) (i x : ℕ) (hi : i < l.length) :
    (l.set i x).getD i 0 = x := by
  rw [getD_eq_getElem_of_lt _ _ (by simpa using hi)]
  exact List.getElem_set_self (by simpa using hi)

theorem getD_set_ne (l : List ℕ) (i j x : ℕ) (hij : i ≠ j) :
    (l.set i x).getD j 0 = l.getD j 0 := by
  by_cases hj : j < l.length
  · rw [getD_eq_getElem_of_lt _ _ (by simpa using hj), getD_eq_getElem_of_lt _ _ hj]
    exact List.getElem_set_ne hij _
  · rw [List.getD_eq_default _ _ (by simp; omega), List.getD_eq_default _ _ (by omega)]

theorem psInner_spec {n : ℕ} : ∀ (fuel n₀ : ℕ) (q : List ℕ) (par : ℤ)
    (τ : Equiv.Perm (Fin n)), RepL n q τ → (∀ v : Fin n, v.val < n₀ → τ v = v) →
    n₀ < n → unfixed τ < fuel →
    ∃ q₂ par₂ τ₂, psInner fuel n₀ q par = some (q₂, par₂) ∧ RepL n q₂ τ₂ ∧
      (∀ v : Fin n, v.val < n₀ + 1 → τ₂ v = v) ∧ par₂ * signZ τ₂ = par * signZ τ := by
  intro fuel
  induction fuel with
  | zero => intro n₀ q par τ _ _ _ hm; omega
  | succ fuel ih =>
      intro n₀ q par τ hrep hfix hn₀ hm
      have hqn : q.getD n₀ 0 = (τ ⟨n₀, hn₀⟩).val := hrep.2 ⟨n₀, hn₀⟩
      by_cases hfixn : n₀ = q.getD n₀ 0
      · refine ⟨q, par, τ, ?_, hrep, ?_, rfl⟩
        · simp only [psInner]
          rw [if_pos hfixn]
        · intro v hv
          rcases Nat.lt_succ_iff_lt_or_eq.mp hv with h | h
          · exact hfix v h
          · have hv0 : v = ⟨n₀, hn₀⟩ := Fin.ext h
            subst hv0
            exact Fin.ext (by rw [← hqn, ← hfixn])
      · have hqn_lt : q.getD n₀ 0 < n := by
          rw [hqn]
          exact (τ _).isLt
        set a : Fin n := ⟨n₀, hn₀⟩ with hadef
        set b : Fin n := ⟨q.getD n₀ 0, hqn_lt⟩ with hbdef
        have hab : a ≠ b := fun h => hfixn (congrArg Fin.val h)
        have hτa : τ a = b := Fin.ext hqn.symm
        have hτb : τ b ≠ b := fun h => hab (τ.injective (hτa.trans h.symm))
        have hqn_ge : ¬(q.getD n₀ 0 < n₀) := fun h => hτb (hfix b h)
        set τ' := τ * Equiv.swap a b with hτdef
        set q' := (q.set n₀ (q.getD (q.getD n₀ 0) 0)).set (q.getD n₀ 0) (q.getD n₀ 0)
          with hqdef
        have hlen' : q'.length = n := by
          rw [hqdef]
          simp [hrep.1]
        have hτ'a : τ' a = τ b := by
          rw [hτdef, Equiv.Perm.mul_apply, Equiv.swap_apply_left]
        have hτ'b : τ' b = b := by
          rw [hτdef, Equiv.Perm.mul_apply, Equiv.swap_apply_right, hτa]
        have hτ'o : ∀ v : Fin n, v ≠ a → v ≠ b → τ' v = τ v := fun v hva hvb => by
          rw [hτdef, Equiv.Perm.mul_apply, Equiv.swap_apply_of_ne_of_ne hva hvb]
        have hqlen : q.length = n := hrep.1
        have hq_at_b : q'.getD (q.getD n₀ 0) 0 = q.getD n₀ 0 := by
          rw [hqdef]
          exact getD_set_self _ _ _ (by rw [List.length_set]; omega)
        have hq_at_a : q'.getD n₀ 0 = q.getD (q.getD n₀ 0) 0 := by
          rw [hqdef, getD_set_ne _ _ _ _ (fun h => hfixn h.symm)]
          exact getD_set_self _ _ _ (by omega)
        have hq_other : ∀ m : ℕ, m ≠ n₀ → m ≠ q.getD n₀ 0 → q'.getD m 0 = q.getD m 0 := by
          intro m h1 h2
          rw [hqdef, getD_set_ne _ _ _ _ (fun h => h2 h.symm),
            getD_set_ne _ _ _ _ (fun h => h1 h.symm)]
        have hrep' : RepL n q' τ' := by
          refine ⟨hlen', fun v => ?_⟩
          by_cases hvb : v = b
          · subst hvb
            show q'.getD (q.getD n₀ 0) 0 = (τ' b).val
            rw [hq_at_b, hτ'b]
          · by_cases hva : v = a
            · subst hva
              show q'.getD n₀ 0 = (τ' a).val
              rw [hq_at_a, hτ'a]
              simpa [hbdef] using hrep.2 b
            · have hvbn : v.val ≠ q.getD n₀ 0 := fun h => hvb (Fin.ext h)
              have hvan : v.val ≠ n₀ := fun h => hva (Fin.ext h)
              rw [hq_other v.val hvan hvbn, hτ'o v hva hvb]
              exact hrep.2 v
        have hfix' : ∀ v : Fin n, v.val < n₀ → τ' v = v := fun v hv => by
          have hva : v ≠ a := fun h => by
            have hv2 : v.val = n₀ := by rw [h, hadef]
            omega
          have hvb : v ≠ b := fun h => by
            have hv2 : v.val = q.getD n₀ 0 := by rw [h, hbdef]
            exact hqn_ge (hv2 ▸ hv)
          rw [hτ'o v hva hvb]
          exact hfix v hv
        have hsub : (Finset.univ.filter fun v : Fin n => τ' v ≠ v) ⊂
            Finset.univ.filter fun v : Fin n => τ v ≠ v := by
          refine ⟨fun v hv => ?_, fun hsup => ?_⟩
          · simp only [Finset.mem_filter, Finset.mem_univ, true_and] at hv ⊢
            intro hτv
            apply hv
            have hva : v ≠ a := fun h => by
              rw [h] at hτv
              exact hab (hτa.symm.trans hτv).symm
            have hvb : v ≠ b := fun h => hτb (h ▸ hτv)
            rw [hτ'o v hva hvb]
            exact hτv
          · have hbmem : b ∈ Finset.univ.filter fun v : Fin n => τ v ≠ v := by
              simp only [Finset.mem_filter, Finset.mem_univ, true_and]
              exact hτb
            have := hsup hbmem
            simp only [Finset.mem_filter, Finset.mem_univ, true_and] at this
            exact this hτ'b
        have hm' : unfixed τ' < fuel := by
          have hlt : unfixed τ' < unfixed τ := Finset.card_lt_card hsub
          omega
        obtain ⟨q₂, par₂, τ₂, hrun, hrep₂, hfix₂, hpar₂⟩ :=
          ih n₀ q' (-par) τ' hrep' hfix' hn₀ hm'
        refine ⟨q₂, par₂, τ₂, ?_, hrep₂, fun v hv => hfix₂ v hv, ?_⟩
        · simp only [psInner]
          rw [if_neg hfixn]
          exact hrun
        · rw [hpar₂, hτdef, signZ, signZ, Equiv.Perm.sign_mul, Equiv.Perm.sign_swap hab]
          push_cast
          ring

theorem psOuter_spec {n : ℕ} : ∀ (m n₀ : ℕ), n₀ + m = n →
    ∀ (q : List ℕ) (par : ℤ) (τ : Equiv.Perm (Fin n)), RepL n q τ →
    (∀ v : Fin n, v.val < n₀ → τ v = v) →
    ∃ q₂ par₂, (List.range' n₀ m).foldlM
        (fun (st : List ℕ × Int) i => psInner (n + 1) i st.1 st.2) (q, par) =
      some (q₂, par₂) ∧ par₂ = par * signZ τ := by
  intro m
  induction m with
  | zero =>
      intro n₀ h q par τ hrep hfix
      have hτ1 : τ = 1 := Equiv.ext fun v => by
        rw [hfix v (by omega)]
        rfl
      refine ⟨q, par, by simp, ?_⟩
      rw [hτ1, signZ, Equiv.Perm.sign_one]
      simp
  | succ m ih =>
      intro n₀ h q par τ hrep hfix
      have hn₀ : n₀ < n := by omega
      have hmeas : unfixed τ < n + 1 := by
        have := unfixed_le τ
        omega
      obtain ⟨q', par', τ', hrun, hrep', hfix', hpar'⟩ :=
        psInner_spec (n + 1) n₀ q par τ hrep hfix hn₀ hmeas
      obtain ⟨q₂, par₂, hrun₂, hpar₂⟩ := ih (n₀ + 1) (by omega) q' par' τ' hrep' hfix'
      refine ⟨q₂, par₂, ?_, ?_⟩
      · rw [List.range'_succ, List.foldlM_cons, hrun]
        simpa using hrun₂
      · rw [hpar₂]
        have hs : signZ τ' * signZ τ' = 1 := by
          rw [signZ]
          rcases Int.units_eq_one_or (Equiv.Perm.sign τ') with h1 | h1 <;>
            rw [h1] <;> norm_num
        calc par' * signZ τ' = par' * signZ τ' * (signZ τ' * signZ τ') := by rw [hs]; ring
          _ = (par' * signZ τ') * signZ τ' * signZ τ' := by ring
          _ = (par * signZ τ) * signZ τ' * signZ τ' := by rw [hpar']
          _ = par * signZ τ * (signZ τ' * signZ τ') := by ring
          _ = par * signZ τ := by rw [hs]; ring

/-- Algorithm correctness: on a list tabulating the permutation `σ`,
`permutation_sign` terminates (returns `some`) with the sign of `σ`. -/
theorem permutation_sign_correct {n : ℕ} (p : List ℕ) (σ : Equiv.Perm (Fin n))
    (hlen : p.length = n) (htab : ∀ v : Fin n, p.getD v.val 0 = (σ v).val) :
    permutation_sign p = some (signZ σ) := by
  obtain ⟨q₂, par₂, hrun, hpar⟩ :=
    psOuter_spec n 0 (by omega) p 1 σ ⟨hlen, htab⟩ fun v hv => absurd hv (by omega)
  rw [permutation_sign, hlen, List.range_eq_range', hrun]
  show some (q₂, par₂).2 = some (signZ σ)
  rw [hpar, one_mul]

/-- A list that is a permutation of `range n` tabulates a permutation of `Fin n`. -/
theorem perm_to_equiv (n : ℕ) (p : List ℕ) (hp : p.Perm (List.range n)) :
    ∃ σ : Equiv.Perm (Fin n), (∀ v : Fin n, p.getD v.val 0 = (σ v).val) ∧
      p.length = n := by
  have hlen : p.length = n := by simpa using hp.length_eq
  have hnd : p.Nodup := hp.nodup_iff.mpr (List.nodup_range n)
  have hvals : ∀ i, (hi : i < p.length) → p[i] < n := fun i hi =>
    List.mem_range.mp (hp.mem_iff.mp (List.getElem_mem hi))
  have hbij : Function.Bijective
      (fun v : Fin n => (⟨p.get ⟨v.val, by omega⟩, hvals _ (by omega)⟩ : Fin n)) := by
    rw [← Finite.injective_iff_bijective]
    intro x y hxy
    have h2 : p.get ⟨x.val, by omega⟩ = p.get ⟨y.val, by omega⟩ := congrArg Fin.val hxy
    have hinj := List.nodup_iff_injective_getElem.mp hnd
    have h3 : (⟨x.val, by omega⟩ : Fin p.length) = ⟨y.val, by omega⟩ := hinj h2
    have hval : x.val = y.val := by simpa using h3
    exact Fin.ext hval
  refine ⟨Equiv.ofBijective _ hbij, fun v => ?_, hlen⟩
  rw [Equiv.ofBijective_apply]
  exact getD_eq_getElem_of_lt p v.val (by omega) 0

/-- C9: on every sequence that is a permutation of `0..n-1`, `permutation_sign`
terminates and returns the parity (the sign of the tabulated permutation); on the six
permutations of `{0,1,2}` it returns +1 for the identity and the two 3-cycles and -1
for the three transpositions. -/
theorem claim_C9 :
    (∀ (n : ℕ) (p : List ℕ), p.Perm (List.range n) →
      ∃ σ : Equiv.Perm (Fin n), (∀ v : Fin n, p.getD v.val 0 = (σ v).val) ∧
        permutation_sign p = some ((Equiv.Perm.sign σ : ℤˣ) : ℤ)) ∧
    permutation_sign [0, 1, 2] = some 1 ∧ permutation_sign [1, 2, 0] = some 1 ∧
    permutation_sign [2, 0, 1] = some 1 ∧ permutation_sign [0, 2, 1] = some (-1) ∧
    permutation_sign [1, 0, 2] = some (-1) ∧ permutation_sign [2, 1, 0] = some (-1) := by
  refine ⟨fun n p hp => ?_, by decide, by decide, by decide, by decide, by decide,
    by decide⟩
  obtain ⟨σ, htab, hlen⟩ := perm_to_equiv n p hp
  exact ⟨σ, htab, permutation_sign_correct p σ hlen htab⟩

/-- C9 witness: the general statement applied to the 3-cycle `[2, 0, 1]`. -/
theorem claim_C9_witness :
    ∃ σ : Equiv.Perm (Fin 3), (∀ v : Fin 3, [2, 0, 1].getD v.val 0 = (σ v).val) ∧
      permutation_sign [2, 0, 1] = some ((Equiv.Perm.sign σ : ℤˣ) : ℤ) :=
  claim_C9.1 3 [2, 0, 1] (by decide)

/-! ## Claim C1: the vielbein exponentiates the transposed generator combination -/

/-- Shared form of C10: the E7 construction loop equals one body execution. -/
theorem e7_t_eq_once : e7_t_a_ij_kl = e7_t_once := by
  show (List.range (34 + 1)).foldl (fun s _ => e7_body s) (fun _ _ _ => 0) = e7_t_once
  rw [e7_fold_succ]
  rfl

theorem gamma_vsc_castZ : ∀ i s c, gamma_vsc i s c = ((gammaZ i s c : ℤ) : ℚ) := by
  intro i s c
  rw [gamma_vsc_eq_table]
  revert i s c
  decide

theorem g_ijcC_castZ (i j c C : Fin 8) : g_ijcC i j c C = ((g2Z i j c C : ℤ) : ℚ) := by
  simp only [g_ijcC, g2Z, gamma_vsc_castZ]
  push_cast
  rfl

theorem g_ijklcC_castZ (i j k l c C : Fin 8) :
    g_ijklcC i j k l c C = ((g6Z i j k l c C : ℤ) : ℚ) := by
  simp only [g_ijklcC, g6Z, g_ijcC_castZ]
  push_cast
  rfl

theorem gamma_vvvvcc_castZ (i j k l c C : Fin 8) :
    gamma_vvvvcc i j k l c C = ((S4Z i j k l c C : ℤ) : ℚ) / 24 := by
  rw [gamma_vvvvcc, S4Z]
  congr 1
  rw [Int.cast_list_sum, List.map_map]
  refine congrArg List.sum (List.map_congr_left fun p _ => ?_)
  simp only [Function.comp_apply, g_ijklcC_castZ]
  push_cast
  rfl

theorem ij_map_getD_0 : ij_map.getD 0 (0, 0) = (0, 1) := by decide

theorem ij_map_getD_13 : ij_map.getD 13 (0, 0) = (2, 3) := by decide

theorem fin8_val_0 : ((0 : Fin 8)).val = 0 := rfl

theorem fin8_val_1 : ((1 : Fin 8)).val = 1 := rfl

theorem fin8_val_2 : ((2 : Fin 8)).val = 2 := rfl

theorem fin8_val_3 : ((3 : Fin 8)).val = 3 := rfl

theorem fin8_val_4 : ((4 : Fin 8)).val = 4 := rfl

theorem fin8_val_5 : ((5 : Fin 8)).val = 5 := rfl

theorem fin8_val_6 : ((6 : Fin 8)).val = 6 := rfl

theorem fin8_val_7 : ((7 : Fin 8)).val = 7 := rfl

theorem sum_m35C_0 (f : Fin 8 → Fin 8 → ℂ) :
    (∑ c, ∑ C, f c C * m_35_8_8 ⟨0, by norm_num⟩ c C) = f 0 0 - f 1 1 := by
  simp only [m_35_8_8, m_35_8_8Q, Fin.sum_univ_eight, fin8_val_0, fin8_val_1, fin8_val_2, fin8_val_3, fin8_val_4, fin8_val_5, fin8_val_6, fin8_val_7]
  norm_num
  ring

theorem sum_m28C_0 (f : Fin 8 → Fin 8 → ℂ) :
    (∑ i, ∑ j, f i j * m_28_8_8 ⟨0, by norm_num⟩ i j) = f 0 1 - f 1 0 := by
  simp only [m_28_8_8, m_28_8_8Q, ij_map_getD_0, Prod.mk.injEq, Fin.sum_univ_eight, fin8_val_0, fin8_val_1, fin8_val_2, fin8_val_3, fin8_val_4, fin8_val_5, fin8_val_6, fin8_val_7]
  norm_num
  ring

theorem sum_m28C_13 (f : Fin 8 → Fin 8 → ℂ) :
    (∑ i, ∑ j, f i j * m_28_8_8 ⟨13, by norm_num⟩ i j) = f 2 3 - f 3 2 := by
  simp only [m_28_8_8, m_28_8_8Q, ij_map_getD_13, Prod.mk.injEq, Fin.sum_univ_eight, fin8_val_0, fin8_val_1, fin8_val_2, fin8_val_3, fin8_val_4, fin8_val_5, fin8_val_6, fin8_val_7]
  norm_num
  ring

theorem e7_A_cc_eval (i j k l : Fin 8) :
    e7_A_cc i j k l ⟨0, by norm_num⟩ =
      ((gamma_vvvvcc i j k l 0 0 : ℚ) : ℂ) - ((gamma_vvvvcc i j k l 1 1 : ℚ) : ℂ) :=
  sum_m35C_0 fun c C => ((gamma_vvvvcc i j k l c C : ℚ) : ℂ)

theorem e7_B_cc_I0_eval (k l : Fin 8) :
    e7_B_cc ⟨0, by norm_num⟩ ⟨0, by norm_num⟩ k l =
      e7_A_cc 0 1 k l ⟨0, by norm_num⟩ - e7_A_cc 1 0 k l ⟨0, by norm_num⟩ :=
  sum_m28C_0 fun i j => e7_A_cc i j k l ⟨0, by norm_num⟩

theorem e7_B_cc_I13_eval (k l : Fin 8) :
    e7_B_cc ⟨0, by norm_num⟩ ⟨13, by norm_num⟩ k l =
      e7_A_cc 2 3 k l ⟨0, by norm_num⟩ - e7_A_cc 3 2 k l ⟨0, by norm_num⟩ :=
  sum_m28C_13 fun i j => e7_A_cc i j k l ⟨0, by norm_num⟩

theorem s4z_0123_00 : S4Z 0 1 2 3 0 0 = 24 := by decide

theorem s4z_0123_11 : S4Z 0 1 2 3 1 1 = -24 := by decide

theorem s4z_1023_00 : S4Z 1 0 2 3 0 0 = -24 := by decide

theorem s4z_1023_11 : S4Z 1 0 2 3 1 1 = 24 := by decide

theorem s4z_0132_00 : S4Z 0 1 3 2 0 0 = -24 := by decide

theorem s4z_0132_11 : S4Z 0 1 3 2 1 1 = 24 := by decide

theorem s4z_1032_00 : S4Z 1 0 3 2 0 0 = 24 := by decide

theorem s4z_1032_11 : S4Z 1 0 3 2 1 1 = -24 := by decide

theorem s4z_2301_00 : S4Z 2 3 0 1 0 0 = 24 := by decide

theorem s4z_2301_11 : S4Z 2 3 0 1 1 1 = -24 := by decide

theorem s4z_3201_00 : S4Z 3 2 0 1 0 0 = -24 := by decide

theorem s4z_3201_11 : S4Z 3 2 0 1 1 1 = 24 := by decide

theorem s4z_2310_00 : S4Z 2 3 1 0 0 0 = -24 := by decide

theorem s4z_2310_11 : S4Z 2 3 1 0 1 1 = 24 := by decide

theorem s4z_3210_00 : S4Z 3 2 1 0 0 0 = 24 := by decide

theorem s4z_3210_11 : S4Z 3 2 1 0 1 1 = -24 := by decide

theorem e7_C_cc_0_0_13 :
    e7_C_cc ⟨0, by norm_num⟩ ⟨0, by norm_num⟩ ⟨13, by norm_num⟩ = 8 := by
  have hC := sum_m28C_13 fun k l => e7_B_cc ⟨0, by norm_num⟩ ⟨0, by norm_num⟩ k l
  rw [show e7_C_cc ⟨0, by norm_num⟩ ⟨0, by norm_num⟩ ⟨13, by norm_num⟩ =
      ∑ k, ∑ l, e7_B_cc ⟨0, by norm_num⟩ ⟨0, by norm_num⟩ k l *
        m_28_8_8 ⟨13, by norm_num⟩ k l from rfl, hC]
  rw [e7_B_cc_I0_eval, e7_B_cc_I0_eval, e7_A_cc_eval, e7_A_cc_eval, e7_A_cc_eval,
    e7_A_cc_eval]
  rw [gamma_vvvvcc_castZ, gamma_vvvvcc_castZ, gamma_vvvvcc_castZ, gamma_vvvvcc_castZ,
    gamma_vvvvcc_castZ, gamma_vvvvcc_castZ, gamma_vvvvcc_castZ, gamma_vvvvcc_castZ]
  rw [s4z_0123_00, s4z_0123_11, s4z_1023_00, s4z_1023_11, s4z_0132_00, s4z_0132_11,
    s4z_1032_00, s4z_1032_11]
  norm_num

theorem e7_C_cc_0_13_0 :
    e7_C_cc ⟨0, by norm_num⟩ ⟨13, by norm_num⟩ ⟨0, by norm_num⟩ = 8 := by
  have hC := sum_m28C_0 fun k l => e7_B_cc ⟨0, by norm_num⟩ ⟨13, by norm_num⟩ k l
  rw [show e7_C_cc ⟨0, by norm_num⟩ ⟨13, by norm_num⟩ ⟨0, by norm_num⟩ =
      ∑ k, ∑ l, e7_B_cc ⟨0, by norm_num⟩ ⟨13, by norm_num⟩ k l *
        m_28_8_8 ⟨0, by norm_num⟩ k l from rfl, hC]
  rw [e7_B_cc_I13_eval, e7_B_cc_I13_eval, e7_A_cc_eval, e7_A_cc_eval, e7_A_cc_eval,
    e7_A_cc_eval]
  rw [gamma_vvvvcc_castZ, gamma_vvvvcc_castZ, gamma_vvvvcc_castZ, gamma_vvvvcc_castZ,
    gamma_vvvvcc_castZ, gamma_vvvvcc_castZ, gamma_vvvvcc_castZ, gamma_vvvvcc_castZ]
  rw [s4z_2301_00, s4z_2301_11, s4z_3201_00, s4z_3201_11, s4z_2310_00, s4z_2310_11,
    s4z_3210_00, s4z_3210_11]
  norm_num

theorem gen35_28_13 :
    e7_t_a_ij_kl ⟨35, by omega⟩ ⟨28, by omega⟩ ⟨13, by omega⟩ = Complex.I := by
  rw [e7_t_eq_once]
  show e7_body (fun _ _ _ => 0) ⟨35, by omega⟩ ⟨28, by omega⟩ ⟨13, by omega⟩ = Complex.I
  rw [e7_body]
  norm_num
  show Complex.I / 8 *
      e7_C_cc ⟨0, by norm_num⟩ ⟨0, by norm_num⟩ ⟨13, by norm_num⟩ = Complex.I
  rw [e7_C_cc_0_0_13]
  ring

theorem gen35_13_28 :
    e7_t_a_ij_kl ⟨35, by omega⟩ ⟨13, by omega⟩ ⟨28, by omega⟩ = -Complex.I := by
  rw [e7_t_eq_once]
  show e7_body (fun _ _ _ => 0) ⟨35, by omega⟩ ⟨13, by omega⟩ ⟨28, by omega⟩ = -Complex.I
  rw [e7_body]
  norm_num
  show -Complex.I / 8 *
      e7_C_cc ⟨0, by norm_num⟩ ⟨13, by norm_num⟩ ⟨0, by norm_num⟩ = -Complex.I
  rw [e7_C_cc_0_13_0]
  ring

theorem t_e7_generator_eq (v : Fin 70 → ℝ) : t_e7_generator v = (claimG v)ᵀ := by
  funext J I
  rfl

theorem claimG_zero : claimG (fun _ => 0) = 0 := by
  funext I J
  simp [claimG]

theorem claimG_e35 :
    claimG (fun v => if v.val = 35 then (1 : ℝ) else 0) = gen35M := by
  funext I J
  rw [show claimG (fun v => if v.val = 35 then (1 : ℝ) else 0) I J =
      ∑ k : Fin 70, (((if (k : Fin 70).val = 35 then (1 : ℝ) else 0) : ℝ) : ℂ) *
        e7_t_a_ij_kl ⟨k.val, by omega⟩ I J from rfl]
  rw [Finset.sum_eq_single (⟨35, by omega⟩ : Fin 70)]
  · norm_num
    rfl
  · intro b _ hb
    have hbv : ¬(b.val = 35) := fun h => hb (Fin.ext h)
    simp [hbv]
  · intro h
    exact absurd (Finset.mem_univ _) h

theorem claimG_smul (t : ℝ) (v : Fin 70 → ℝ) : claimG (t • v) = t • claimG v := by
  funext I J
  simp only [claimG, Matrix.smul_apply, Pi.smul_apply, smul_eq_mul, Complex.ofReal_mul,
    Complex.real_smul, Finset.mul_sum, mul_assoc]

/-- C1 (amended): the vielbein is the exponential of the TRANSPOSED generator
combination (the source einsum emits index order `JI`), i.e. the transpose of
`exp G`; at `v70 = 0` the vielbein is the identity. -/
theorem claim_C1 :
    (∀ v70 : Fin 70 → ℝ,
      t_complex_vielbein v70 = (NormedSpace.exp ℂ (claimG v70))ᵀ) ∧
      t_complex_vielbein (fun _ => 0) = 1 := by
  constructor
  · intro v
    rw [t_complex_vielbein, t_e7_generator_eq, Matrix.exp_transpose]
  · rw [t_complex_vielbein, t_e7_generator_eq, claimG_zero, Matrix.transpose_zero,
      NormedSpace.exp_zero]

/-- C1 counterexample: the vielbein is NOT the exponential of the untransposed
combination `G`.  The generator at index 35 is not a symmetric matrix (entries `i`
at `(28,13)` and `-i` at `(13,28)`), and differentiating both sides of the claimed
identity along `t ↦ t·e₃₅` at zero would force it to be symmetric. -/
theorem claim_C1_counterexample :
    ¬ ∀ v70 : Fin 70 → ℝ,
        t_complex_vielbein v70 = NormedSpace.exp ℂ (claimG v70) := by
  intro h
  letI : SeminormedRing Mat56 := Matrix.linftyOpSemiNormedRing
  letI : NormedRing Mat56 := Matrix.linftyOpNormedRing
  letI : NormedAlgebra ℝ Mat56 := Matrix.linftyOpNormedAlgebra
  letI : NormedAlgebra ℂ Mat56 := Matrix.linftyOpNormedAlgebra
  have hT : ∀ v : Fin 70 → ℝ,
      NormedSpace.exp ℂ ((claimG v)ᵀ) = NormedSpace.exp ℂ (claimG v) := by
    intro v
    have h1 := h v
    rw [t_complex_vielbein, t_e7_generator_eq] at h1
    exact h1
  have hR : ∀ t : ℝ,
      NormedSpace.exp ℝ (t • gen35Mᵀ) = NormedSpace.exp ℝ (t • gen35M) := by
    intro t
    have h2 := hT (t • fun v : Fin 70 => if v.val = 35 then (1 : ℝ) else 0)
    rw [claimG_smul, claimG_e35, Matrix.transpose_smul] at h2
    rw [NormedSpace.exp_eq_exp ℝ ℂ]
    exact h2
  have hM := hasDerivAt_exp_smul_const gen35Mᵀ (0 : ℝ)
  have hN := hasDerivAt_exp_smul_const gen35M (0 : ℝ)
  have hfun : (fun t : ℝ => NormedSpace.exp ℝ (t • gen35Mᵀ)) =
      fun t : ℝ => NormedSpace.exp ℝ (t • gen35M) := funext hR
  rw [hfun] at hM
  have huniq := hM.unique hN
  simp only [zero_smul, NormedSpace.exp_zero, one_mul] at huniq
  have he := congrFun (congrFun huniq (⟨28, by omega⟩ : Fin 56)) (⟨13, by omega⟩ : Fin 56)
  rw [Matrix.transpose_apply] at he
  rw [show gen35M ⟨13, by omega⟩ ⟨28, by omega⟩ =
      e7_t_a_ij_kl ⟨35, by omega⟩ ⟨13, by omega⟩ ⟨28, by omega⟩ from rfl,
    show gen35M ⟨28, by omega⟩ ⟨13, by omega⟩ =
      e7_t_a_ij_kl ⟨35, by omega⟩ ⟨28, by omega⟩ ⟨13, by omega⟩ from rfl,
    gen35_13_28, gen35_28_13] at he
  have hI0 : Complex.I = 0 := by linear_combination (-1 / 2 : ℂ) * he
  exact Complex.I_ne_zero hI0
